import Mathlib

/-!
Verification development for the snav symbol navigator's core
(candidate producer, fuzzy ranker, semantic classifier, grep-record
parser, span normalizer).  Go strings are modelled as `List Char`
(Go iterates strings rune by rune), raw grep records as `List Nat`
(byte values), Go machine integers as `Int` with explicit wrapping
(`wrap32`, `wrap64`, `wrap16`) at the points where overflow is
observable.  Go functions returning `(value, ok bool)` are modelled
as `Option`.

The Go `unicode` table functions for code points outside ASCII
(`unicode.ToLower`, `unicode.IsLetter`, `unicode.IsDigit`) are huge
data tables of the Go standard library, not code of this repository;
they are passed as an explicit parameter `U : UnicodeTables` and the
theorems hold for every choice of these tables (all concrete inputs
in this file are ASCII, where the source code takes its ASCII fast
paths, embedded exactly).
-/

/-- Two's-complement wrap of an integer to the signed 32-bit range,
modelling Go's `int32(x)` conversion. -/
def wrap32 (x : Int) : Int :=
  (x + 2147483648) % 4294967296 - 2147483648

/-- Two's-complement wrap of an integer to the signed 64-bit range,
modelling Go's 64-bit `int` arithmetic where overflow matters. -/
def wrap64 (x : Int) : Int :=
  (x + 9223372036854775808) % 18446744073709551616 - 9223372036854775808

/-- Two's-complement wrap of an integer to the signed 16-bit range,
modelling Go's `int16` arithmetic. -/
def wrap16 (x : Int) : Int :=
  (x + 32768) % 65536 - 32768

theorem wrap32_eq_self {x : Int} (h1 : -2147483648 ≤ x) (h2 : x < 2147483648) :
    wrap32 x = x := by
  unfold wrap32
  have : (x + 2147483648) % 4294967296 = x + 2147483648 :=
    Int.emod_eq_of_lt (by omega) (by omega)
  omega

theorem wrap16_eq_self {x : Int} (h1 : -32768 ≤ x) (h2 : x < 32768) :
    wrap16 x = x := by
  unfold wrap16
  have : (x + 32768) % 65536 = x + 32768 :=
    Int.emod_eq_of_lt (by omega) (by omega)
  omega

/-- Go `unicode.IsSpace`: the Latin-1 fast set plus the Unicode
White_Space code points. -/
def goIsSpace (c : Char) : Bool :=
  let n := c.toNat
  (9 ≤ n && n ≤ 13) || n == 32 || n == 133 || n == 160 ||
    n == 0x1680 || (0x2000 ≤ n && n ≤ 0x200A) || n == 0x2028 ||
    n == 0x2029 || n == 0x202F || n == 0x205F || n == 0x3000

/-- The Go `unicode` package's classification tables for code points
above ASCII, abstracted as a parameter (they are standard-library data,
not code of this repository). -/
structure UnicodeTables where
  toLowerNA : Char → Char
  isLetterNA : Char → Bool
  isDigitNA : Char → Bool

/-- Trivial instantiation of the Unicode tables, used only to evaluate
the embedding on ASCII inputs (where the tables are never consulted). -/
def asciiTables : UnicodeTables :=
  { toLowerNA := id, isLetterNA := fun _ => false, isDigitNA := fun _ => false }

/-- Source `lowerRuneFast` (fuzzy.go): ASCII fast path, falling back to
`unicode.ToLower` beyond ASCII. -/
def lowerRuneFast (U : UnicodeTables) (r : Char) : Char :=
  if 'A' ≤ r && r ≤ 'Z' then Char.ofNat (r.toNat + 32)
  else if r.toNat ≤ 127 then r
  else U.toLowerNA r

/-- Source `isBoundaryRune` (fuzzy.go). -/
def isBoundaryRune (U : UnicodeTables) (r : Char) : Bool :=
  if r == '_' || r == '-' || r == '/' || r == '.' || r == ':' then true
  else if r.toNat ≤ 127 then
    !(('a' ≤ r && r ≤ 'z') || ('A' ≤ r && r ≤ 'Z') || ('0' ≤ r && r ≤ '9'))
  else
    !(U.isLetterNA r) && !(U.isDigitNA r)

/-- Source `TrimRunes` (fuzzy.go): `strings.TrimSpace`, then the runes;
an all-space string yields the empty list. -/
def TrimRunes (s : List Char) : List Char :=
  ((s.dropWhile goIsSpace).reverse.dropWhile goIsSpace).reverse

/-- Source `LowerRunes` (fuzzy.go): rune-wise `lowerRuneFast`
(the source's nil-for-empty special case maps `[]` to `[]`, which is
what `List.map` does). -/
def LowerRunes (U : UnicodeTables) (r : List Char) : List Char :=
  r.map (lowerRuneFast U)

/-- Source `nonSpaceRuneCount` (fuzzy.go). -/
def nonSpaceRuneCount (r : List Char) : Nat :=
  r.countP (fun v => !goIsSpace v)

/-- Source `skipLeadingSpaces` (fuzzy.go): advance `i` past whitespace
runes of `l`.  The Go `for` loop increments `i` while `l[i]` is a space;
its result is `i` plus the length of the whitespace run starting at `i`. -/
def skipLeadingSpaces (l : List Char) (i : Nat) : Nat :=
  i + ((l.drop i).takeWhile goIsSpace).length

/-- State of the single pass over the text in `fuzzyScore`
(the mutable locals of the Go loop). -/
structure FuzzyState where
  qi : Nat
  last : Int
  first : Int
  score : Int
  runeIdx : Int
  prev : Char
  hasPrev : Bool
  caseMatches : Int
  deriving Repr, DecidableEq

/-- One iteration of the `for _, raw := range text` loop of
source `fuzzyScore` (fuzzy.go). -/
def fuzzyStep (U : UnicodeTables) (qRaw qLower : List Char) (caseSensitive : Bool)
    (st : FuzzyState) (raw : Char) : FuzzyState :=
  let r := lowerRuneFast U raw
  if st.qi < qLower.length && r == qLower.getD st.qi ' ' then
    let caseHit := caseSensitive && st.qi < qRaw.length && raw == qRaw.getD st.qi ' '
    let bonus : Int := 10 +
      (if st.runeIdx == 0 || (st.hasPrev && isBoundaryRune U st.prev) then 8 else 0) +
      (if st.last + 1 == st.runeIdx then 6 else 0) +
      (if caseHit then 4 else 0)
    { qi := skipLeadingSpaces qLower (st.qi + 1)
      last := st.runeIdx
      first := if st.first < 0 then st.runeIdx else st.first
      score := st.score + bonus
      runeIdx := st.runeIdx + 1
      prev := r
      hasPrev := true
      caseMatches := st.caseMatches + (if caseHit then 1 else 0) }
  else
    { st with prev := r, hasPrev := true, runeIdx := st.runeIdx + 1 }

/-- Source `fuzzyScore` (fuzzy.go).  Returns `some (score, span)` where
the Go function returns `(score, span, true)` and `none` where it
returns `(0, 0, false)`. -/
def fuzzyScore (U : UnicodeTables) (text qRaw qLower : List Char)
    (caseSensitive : Bool) : Option (Int × Int) :=
  if qLower.length = 0 then some (0, 0)
  else
    let queryLen : Int := nonSpaceRuneCount qLower
    if queryLen = 0 then some (0, 0)
    else
      let qi0 := skipLeadingSpaces qLower 0
      if qi0 = qLower.length then some (0, 0)
      else
        let st := text.foldl (fuzzyStep U qRaw qLower caseSensitive)
          { qi := qi0, last := -2, first := -1, score := 0, runeIdx := 0,
            prev := Char.ofNat 0, hasPrev := false, caseMatches := 0 }
        let qi1 := skipLeadingSpaces qLower st.qi
        if qi1 ≠ qLower.length then none
        else
          let score1 := if st.runeIdx > (qLower.length : Int) then
              st.score - (st.runeIdx - qLower.length) else st.score
          let score2 := if st.runeIdx < 40 then score1 + (40 - st.runeIdx) else score1
          let score3 := if st.caseMatches > 0 then score2 + st.caseMatches * 3 else score2
          let span := if st.first ≥ 0 then st.last - st.first + 1 else 0
          let score4 :=
            if span > 0 then
              if span = queryLen then score3 + 12
              else if span > queryLen then score3 - (span - queryLen) * 2
              else score3
            else score3
          some (score4, span)

example : (fuzzyScore asciiTables "myFunc".data "myf".data "myf".data true).isSome = true := by
  decide

/-- Candidate record (types.go).  The Go field `LangID` (language
identifier) is carried verbatim; `SemanticScore` is an `int16` in Go,
so the data model guarantees it lies in the signed 16-bit range. -/
structure Candidate where
  id : Int
  file : List Char
  line : Int
  col : Int
  text : List Char
  key : List Char
  langID : List Char
  semanticScore : Int
  deriving Repr, DecidableEq, Inhabited

/-- Filtered-candidate record (types.go); all four fields are `int32`
in Go. -/
structure FilteredCandidate where
  index : Int
  score : Int
  openLine : Int
  openCol : Int
  deriving Repr, DecidableEq, Inhabited

/-- Token bytes accepted by source `leadingToken` (semantic.go): the
Go loop scans bytes `a-z`, `0-9`, `_`; any other byte (including the
lead byte of a non-ASCII rune) stops the scan, so scanning runes is
equivalent. -/
def isTokenByte (c : Char) : Bool :=
  ('a' ≤ c && c ≤ 'z') || ('0' ≤ c && c ≤ '9') || c == '_'

/-- Space or tab, the cut set of the `strings.TrimLeft(_, " \t")` calls
in semantic.go. -/
def isSpaceTab (c : Char) : Bool :=
  c == ' ' || c == '\t'

/-- Source `leadingToken` (semantic.go): trim leading spaces/tabs, then
split off the longest run of token bytes. -/
def leadingToken (s : List Char) : List Char × List Char :=
  let t := s.dropWhile isSpaceTab
  (t.takeWhile isTokenByte, t.dropWhile isTokenByte)

/-- Source `trimModifierTail` (semantic.go): trim, skip a `pub(...)`
scope group, trim again. -/
def trimModifierTail (token tail : List Char) : List Char :=
  let rest := tail.dropWhile isSpaceTab
  let rest :=
    if token == "pub".data && rest.head? == some '(' then
      match rest.findIdx? (fun c => c == ')') with
      | some j => rest.drop (j + 1)
      | none => rest
    else rest
  rest.dropWhile isSpaceTab

theorem trimModifierTail_length_le (token tail : List Char) :
    (trimModifierTail token tail).length ≤ tail.length := by
  have h1 : (tail.dropWhile isSpaceTab).length ≤ tail.length :=
    (List.dropWhile_sublist _).length_le
  unfold trimModifierTail
  dsimp only
  split
  · split
    · rename_i j _
      have h2 : (((tail.dropWhile isSpaceTab).drop (j + 1)).dropWhile isSpaceTab).length ≤
          ((tail.dropWhile isSpaceTab).drop (j + 1)).length :=
        (List.dropWhile_sublist _).length_le
      have h3 := List.length_drop (j + 1) (tail.dropWhile isSpaceTab)
      omega
    · exact le_trans ((List.dropWhile_sublist _).length_le) h1
  · exact le_trans ((List.dropWhile_sublist _).length_le) h1

theorem leadingToken_snd_length_lt (s : List Char)
    (h : ¬ (leadingToken s).1.isEmpty) : (leadingToken s).2.length < s.length := by
  unfold leadingToken at *
  simp only at h ⊢
  have hsplit : ((s.dropWhile isSpaceTab).takeWhile isTokenByte).length +
      ((s.dropWhile isSpaceTab).dropWhile isTokenByte).length =
      (s.dropWhile isSpaceTab).length := by
    have := congrArg List.length
      (List.takeWhile_append_dropWhile isTokenByte (s.dropWhile isSpaceTab))
    rw [List.length_append] at this
    exact this
  have hlen : (s.dropWhile isSpaceTab).length ≤ s.length :=
    (List.dropWhile_sublist _).length_le
  have htok : 0 < ((s.dropWhile isSpaceTab).takeWhile isTokenByte).length := by
    cases hh : (s.dropWhile isSpaceTab).takeWhile isTokenByte with
    | nil => rw [hh] at h; simp at h
    | cons a l => simp [hh]
  omega

/-- Source `classifyDeclaration` (semantic.go): absorb visibility and
neutral modifier tokens, updating the visibility bias, until the
declaration keyword (or nothing) is reached. -/
def classifyDeclaration (remaining : List Char) (visibility : Int) :
    List Char × List Char × Int :=
  if h0 : remaining.isEmpty then ([], [], visibility)
  else
    let tt := leadingToken remaining
    if h1 : tt.1.isEmpty then ([], [], visibility)
    else if tt.1 == "export".data || tt.1 == "public".data || tt.1 == "pub".data then
      classifyDeclaration (trimModifierTail tt.1 tt.2)
        (if visibility < 35 then 35 else visibility)
    else if tt.1 == "protected".data || tt.1 == "internal".data then
      classifyDeclaration (trimModifierTail tt.1 tt.2)
        (if visibility < 20 then 20 else visibility)
    else if tt.1 == "private".data then
      classifyDeclaration (trimModifierTail tt.1 tt.2)
        (if visibility == 0 then -15 else visibility)
    else if tt.1 == "default".data || tt.1 == "async".data || tt.1 == "abstract".data ||
        tt.1 == "final".data || tt.1 == "sealed".data || tt.1 == "partial".data ||
        tt.1 == "static".data || tt.1 == "inline".data || tt.1 == "open".data ||
        tt.1 == "virtual".data || tt.1 == "override".data || tt.1 == "readonly".data ||
        tt.1 == "extern".data || tt.1 == "unsafe".data then
      classifyDeclaration (trimModifierTail tt.1 tt.2) visibility
    else (tt.1, tt.2.dropWhile isSpaceTab, visibility)
termination_by remaining.length
decreasing_by
  all_goals
    have h2 := trimModifierTail_length_le (leadingToken remaining).1 (leadingToken remaining).2
    have h3 := leadingToken_snd_length_lt remaining h1
    omega

/-- Source `hasSemanticPrefix` (semantic.go): a strict prefix check
(the name must be longer than the prefix). -/
def hasSemanticPre (name pre : List Char) : Bool :=
  if name.length ≤ pre.length then false else pre.isPrefixOf name

/-- Source `isConstructorName` (semantic.go). -/
def isConstructorName (name : List Char) : Bool :=
  if name.isEmpty then false
  else if name == "constructor".data || name == "__init__".data || name == "new".data then
    true
  else
    hasSemanticPre name "new".data || hasSemanticPre name "create".data ||
      hasSemanticPre name "make".data || hasSemanticPre name "build".data ||
      hasSemanticPre name "init".data

/-- Go `strings.Contains` modelled on rune lists (substring of bytes
equals contiguous subsequence of runes for the ASCII needles used in
semantic.go). -/
def goContains (l sub : List Char) : Bool :=
  decide (sub <:+: l)

/-- Source `functionNameAndMethod` (semantic.go). -/
def functionNameAndMethod (keyword rest : List Char) : List Char × Bool :=
  let body := rest.dropWhile isSpaceTab
  let recvMethod := keyword == "func".data && body.head? == some '('
  let body :=
    if recvMethod then
      match body.findIdx? (fun c => c == ')') with
      | some j => (body.drop (j + 1)).dropWhile isSpaceTab
      | none => body
    else body
  let nt := leadingToken body
  let after := nt.2.dropWhile isSpaceTab
  let isMethod := recvMethod ||
    (keyword == "def".data &&
      (goContains after "(self".data || goContains after "(cls".data)) ||
    (keyword == "fn".data &&
      (goContains after "&self".data || goContains after " self".data))
  (nt.1, isMethod)

/-- Source `semanticFunctionLikeScore` (semantic.go). -/
def semanticFunctionLikeScore (keyword rest : List Char) : Int :=
  let nm := functionNameAndMethod keyword rest
  if isConstructorName nm.1 then 410
  else if nm.2 then 300
  else 340

/-- Source `semanticScoreForDeclaration` (semantic.go): base score by
declaration keyword. -/
def semanticScoreForDeclaration (keyword rest : List Char) : Int :=
  if keyword == "class".data || keyword == "struct".data || keyword == "interface".data ||
      keyword == "enum".data || keyword == "trait".data || keyword == "protocol".data ||
      keyword == "record".data || keyword == "type".data then 460
  else if keyword == "constructor".data then 410
  else if keyword == "func".data || keyword == "function".data || keyword == "def".data ||
      keyword == "fn".data || keyword == "fun".data then
    semanticFunctionLikeScore keyword rest
  else if keyword == "const".data || keyword == "static".data then 260
  else if keyword == "namespace".data || keyword == "module".data || keyword == "mod".data ||
      keyword == "package".data || keyword == "impl".data || keyword == "extension".data then
    220
  else if keyword == "field".data || keyword == "property".data then 170
  else if keyword == "let".data || keyword == "var".data || keyword == "val".data then 110
  else if keyword == "param".data || keyword == "parameter".data then 80
  else 0

/-- Rune-wise `strings.ToLower`; on ASCII this is exactly the `A-Z`
shift of `lowerRuneFast`, beyond ASCII it is the `unicode.ToLower`
table (the `U` parameter). -/
def goToLower (U : UnicodeTables) (s : List Char) : List Char :=
  s.map (lowerRuneFast U)

/-- Source `computeSemanticScore` (semantic.go).  All arithmetic is
`int16` in Go; the visibility biases and base scores are small
constants, so only the final addition is wrapped. -/
def computeSemanticScore (U : UnicodeTables) (text : List Char) : Int :=
  let lower := goToLower U (TrimRunes text)
  if lower.isEmpty then 0
  else
    let kres := classifyDeclaration lower 0
    if kres.1.isEmpty then kres.2.2
    else
      let base := semanticScoreForDeclaration kres.1 kres.2.1
      if base == 0 then kres.2.2 else wrap16 (base + kres.2.2)

/-- Source `candidateSemanticScore` (semantic.go): use the precomputed
field unless it is zero. -/
def candidateSemanticScore (U : UnicodeTables) (cand : Candidate) : Int :=
  if cand.semanticScore ≠ 0 then cand.semanticScore
  else computeSemanticScore U cand.text

/-- Go string comparison `<` on keys: lexicographic byte order, which on
valid UTF-8 equals lexicographic code-point order, modelled rune-wise. -/
def strLt : List Char → List Char → Bool
  | [], [] => false
  | [], _ :: _ => true
  | _ :: _, [] => false
  | a :: as, b :: bs => if a < b then true else if b < a then false else strLt as bs

/-- Linux `filepath.Base`: drop trailing slashes, take the part after
the last slash; empty input gives a dot, all-slash input gives a slash. -/
def goBase (path : List Char) : List Char :=
  if path.isEmpty then ".".data
  else
    let p := (path.reverse.dropWhile (fun c => c == '/')).reverse
    let q := (p.reverse.takeWhile (fun c => c != '/')).reverse
    if q.isEmpty then "/".data else q

/-- Linux `filepath.Ext`: the suffix of the final path element starting
at its last dot, empty when the final element has no dot. -/
def goExt (path : List Char) : List Char :=
  let r := path.reverse
  let seg := r.takeWhile (fun c => c != '/')
  match seg.findIdx? (fun c => c == '.') with
  | some j => (r.take (j + 1)).reverse
  | none => []

/-- Source `fileBaseWithoutExt` (key.go): `strings.TrimSuffix(Base(p),
Ext(Base(p)))`. -/
def fileBaseWithoutExt (path : List Char) : List Char :=
  let base := goBase path
  let ext := goExt base
  if ext.isSuffixOf base then base.take (base.length - ext.length) else base

/-- Go `strings.EqualFold` modelled as equality after rune-wise
lowercasing: exact on ASCII (the fast path of the Go implementation);
beyond ASCII the fold is table data abstracted by `U`. -/
def goEqualFold (U : UnicodeTables) (s t : List Char) : Bool :=
  goToLower U s == goToLower U t

/-- Source `keyLooksLikeFilename` (filter.go). -/
def keyLooksLikeFilename (U : UnicodeTables) (cand : Candidate) : Bool :=
  let base := fileBaseWithoutExt cand.file
  if base.isEmpty || cand.key.isEmpty then false
  else goEqualFold U base cand.key

/-- Source `rejectLooseFuzzyMatch` (filter.go). -/
def rejectLooseFuzzyMatch (score span queryLen : Int) : Bool :=
  if queryLen ≤ 1 || span ≤ 0 then false
  else if span ≤ queryLen * 5 then false
  else score < queryLen * 4

/-- Source `maxInt32` (filter.go). -/
def maxInt32 (a b : Int) : Int :=
  if a > b then a else b

/-- List indexing with a Go `int` index.  The Go code indexes the
candidate slice directly; every execution covered by the theorems in
this file supplies an in-range index (the subset path of the source
bounds-checks explicitly, and the other callers iterate valid ranges). -/
def getCandidate (cands : List Candidate) (idx : Int) : Candidate :=
  cands.getD idx.toNat default

/-- The score-composition block of source `scoreCandidate` (filter.go
lines 237-253): `-1048576` is the source's starting score
`int32(-1 << 20)`; every `int32` conversion and addition is wrapped. -/
def composeScore (keyOK textOK pathOK : Bool)
    (keyScore textScore pathScore sem : Int) : Int :=
  let score0 : Int := -1048576
  let score1 := if keyOK then maxInt32 score0 (wrap32 (3000 + keyScore * 3)) else score0
  let score2 := if textOK then maxInt32 score1 (wrap32 (1800 + textScore * 2 - 60)) else score1
  let score3 := if pathOK then maxInt32 score2 (wrap32 (1200 + pathScore - 120)) else score2
  let score4 := if keyOK then wrap32 (score3 + sem) else score3
  if keyOK && textOK then wrap32 (score4 + 80) else score4

/-- Source `scoreCandidate` (filter.go): evaluate the three fuzzy
channels, apply loose-match rejection to the text and path channels,
reject when no channel survives, compose the score, and set the
open-at-head override for path-only matches. -/
def scoreCandidate (U : UnicodeTables) (cand : Candidate) (index : Int)
    (qRaw qLower : List Char) (caseSensitive : Bool) : Option FilteredCandidate :=
  let keyRes := fuzzyScore U cand.key qRaw qLower caseSensitive
  let textRes := fuzzyScore U cand.text qRaw qLower caseSensitive
  let pathRes := fuzzyScore U cand.file qRaw qLower caseSensitive
  let queryLen : Int := nonSpaceRuneCount qLower
  let keyOK := keyRes.isSome
  let keyScore := (keyRes.getD (0, 0)).1
  let textScore := (textRes.getD (0, 0)).1
  let textSpan := (textRes.getD (0, 0)).2
  let pathScore := (pathRes.getD (0, 0)).1
  let pathSpan := (pathRes.getD (0, 0)).2
  let textOK := textRes.isSome && !rejectLooseFuzzyMatch textScore textSpan queryLen
  let pathOK := pathRes.isSome && !rejectLooseFuzzyMatch pathScore pathSpan queryLen
  if !keyOK && !textOK && !pathOK then none
  else
    let openHead := pathOK && !textOK && (!keyOK || keyLooksLikeFilename U cand)
    some { index := index,
           score := composeScore keyOK textOK pathOK keyScore textScore pathScore
             (candidateSemanticScore U cand),
           openLine := if openHead then 1 else 0,
           openCol := if openHead then 1 else 0 }

/-- Source `lessFilteredCandidate` (filter.go): score descending, then
key ascending, then id ascending. -/
def lessFilteredCandidate (cands : List Candidate)
    (left right : FilteredCandidate) : Bool :=
  if left.score ≠ right.score then decide (left.score > right.score)
  else
    let leftCand := getCandidate cands left.index
    let rightCand := getCandidate cands right.index
    if leftCand.key ≠ rightCand.key then strLt leftCand.key rightCand.key
    else decide (leftCand.id < rightCand.id)

/-- Source `sortFilteredCandidates` (filter.go).  `sort.Slice` orders
`out` by the comparator; it is modelled by insertion sort with respect
to the complement relation.  For the list equalities proved below the
comparator is a strict total order on the elements involved, so the
sorted result is unique and independent of the sorting algorithm. -/
def sortFilteredCandidates (cands : List Candidate)
    (out : List FilteredCandidate) : List FilteredCandidate :=
  List.insertionSort (fun a b => lessFilteredCandidate cands b a = false) out

/-- Source `appendScoredRange` (filter.go): the scoring loop over
`[start, e)` appending accepted items to `out` in order — equivalently
`out ++` a `filterMap` over the index range.  In subset mode the loop
walks the prior filtered entries, bounds-checking their indices. -/
def appendScoredRange (U : UnicodeTables) (out : List FilteredCandidate)
    (cands : List Candidate) (subsetQ : Option (List FilteredCandidate))
    (start e : Nat) (qRaw qLower : List Char) (caseSensitive : Bool) :
    List FilteredCandidate :=
  match subsetQ with
  | none =>
    out ++ (List.range' start (e - start)).filterMap
      (fun i : Nat =>
        scoreCandidate U (getCandidate cands (i : Int)) (wrap32 (i : Int)) qRaw qLower caseSensitive)
  | some subset =>
    out ++ ((subset.drop start).take (e - start)).filterMap
      (fun fc =>
        if 0 ≤ fc.index ∧ fc.index < (cands.length : Int) then
          scoreCandidate U (getCandidate cands fc.index) fc.index qRaw qLower caseSensitive
        else none)

/-- Source `filterCandidatesCore` (filter.go).  The parallel path
(`filterWorkerCount > 1`) partitions `[0, rangeLen)` into contiguous
chunks whose outputs are concatenated in index order before sorting,
producing exactly the serial pre-sort list; the embedding therefore
uses the serial loop. -/
def filterCandidatesCore (U : UnicodeTables) (cands : List Candidate)
    (subsetQ : Option (List FilteredCandidate)) (qRaw qLower : List Char) :
    List FilteredCandidate :=
  if qLower.length = 0 then
    (List.range cands.length).map
      (fun i : Nat => { index := wrap32 (i : Int), score := 0, openLine := 0, openCol := 0 })
  else if subsetQ = some [] then []
  else
    let caseSensitive := qRaw.length == qLower.length
    let rangeLen := match subsetQ with
      | none => cands.length
      | some s => s.length
    sortFilteredCandidates cands
      (appendScoredRange U [] cands subsetQ 0 rangeLen qRaw qLower caseSensitive)

/-- Source `FilterCandidatesWithQueryRunes` (filter.go). -/
def FilterCandidatesWithQueryRunes (U : UnicodeTables) (cands : List Candidate)
    (qRaw qLower : List Char) : List FilteredCandidate :=
  filterCandidatesCore U cands none qRaw qLower

/-- Source `FilterCandidates` (filter.go). -/
def FilterCandidates (U : UnicodeTables) (cands : List Candidate)
    (query : List Char) : List FilteredCandidate :=
  let q := TrimRunes query
  FilterCandidatesWithQueryRunes U cands q (LowerRunes U q)

/-- Source `FilterCandidatesSubsetWithQueryRunes` (filter.go). -/
def FilterCandidatesSubsetWithQueryRunes (U : UnicodeTables)
    (cands : List Candidate) (subset : List FilteredCandidate)
    (qRaw qLower : List Char) : List FilteredCandidate :=
  filterCandidatesCore U cands (some subset) qRaw qLower

/-- Source `FilterCandidatesRangeWithQueryRunes` (filter.go): clamp the
range, score it, sort (the parallel path is the same pre-sort list, as
for `filterCandidatesCore`). -/
def FilterCandidatesRangeWithQueryRunes (U : UnicodeTables)
    (cands : List Candidate) (start e : Int) (qRaw qLower : List Char) :
    List FilteredCandidate :=
  let start := if start < 0 then 0 else start
  let e := if e > (cands.length : Int) then (cands.length : Int) else e
  if start ≥ e then []
  else
    let caseSensitive := qRaw.length == qLower.length
    sortFilteredCandidates cands
      (appendScoredRange U [] cands none start.toNat e.toNat qRaw qLower caseSensitive)

/-- The interleaving loop of source `MergeFilteredCandidates`
(filter.go), including the tail appends. -/
def mergeLoop (cands : List Candidate) :
    List FilteredCandidate → List FilteredCandidate → List FilteredCandidate
  | [], r => r
  | l, [] => l
  | a :: as, b :: bs =>
    if lessFilteredCandidate cands a b then a :: mergeLoop cands as (b :: bs)
    else b :: mergeLoop cands (a :: as) bs
termination_by l r => l.length + r.length

/-- Source `MergeFilteredCandidates` (filter.go). -/
def MergeFilteredCandidates (cands : List Candidate)
    (left right : List FilteredCandidate) : List FilteredCandidate :=
  if left.isEmpty then right
  else if right.isEmpty then left
  else mergeLoop cands left right

example :
    FilterCandidates asciiTables
      [{ id := 1, file := "a.go".data, line := 3, col := 1, text := "t".data,
         key := "k".data, langID := [], semanticScore := 0 }] [] =
      [{ index := 0, score := 0, openLine := 0, openCol := 0 }] := by decide

/-- An ASCII decimal digit byte. -/
def isDigitByte (b : Nat) : Bool :=
  48 ≤ b && b ≤ 57

/-- The digit-accumulation loop of `parsePositiveIntField`
(producer.go): `value = value*10 + digit` in Go 64-bit `int`
arithmetic, wrapping, with no overflow or length check. -/
def digitsValue (l : List Nat) : Int :=
  l.foldl (fun (v : Int) (b : Nat) => wrap64 (v * 10 + ((b : Int) - 48))) 0

/-- The exact decimal value of a digit string (no wrapping), for
comparison with the wrapped accumulator. -/
def decimalValue (l : List Nat) : Int :=
  l.foldl (fun (v : Int) (b : Nat) => v * 10 + ((b : Int) - 48)) 0

/-- Source `parsePositiveIntField` (producer.go): take the bytes up to
the first colon, require a non-empty all-digit field, accumulate
`value = value*10 + digit` in Go 64-bit `int` arithmetic (wrapping,
no overflow or length check), reject non-positive values.  The Go loop
rejects on the first non-digit byte; checking all bytes first yields
the same result. -/
def parsePositiveIntField (raw : List Nat) : Option (Int × List Nat) :=
  match raw.findIdx? (fun b => b == 58) with
  | none => none
  | some sep =>
    if sep = 0 then none
    else
      let fieldBytes := raw.take sep
      if fieldBytes.all isDigitByte then
        let value := digitsValue fieldBytes
        if value ≤ 0 then none else some (value, raw.drop (sep + 1))
      else none

/-- Go `strings.TrimRight(s, "\r")`: strip all trailing CR bytes. -/
def trimRightCRBytes (l : List Nat) : List Nat :=
  (l.reverse.dropWhile (fun b => b == 13)).reverse

/-- Source `parseRGVimgrepLine` (producer.go): split at the first NUL
(file), two colon-delimited positive integer fields (line, col), the
remainder with trailing CR stripped (text). -/
def parseRGVimgrepLine (raw : List Nat) :
    Option (List Nat × Int × Int × List Nat) :=
  match raw.findIdx? (fun b => b == 0) with
  | none => none
  | some nul =>
    if nul = 0 ∨ nul + 1 ≥ raw.length then none
    else
      let file := raw.take nul
      let rest := raw.drop (nul + 1)
      match parsePositiveIntField rest with
      | none => none
      | some (lineNo, rest1) =>
        match parsePositiveIntField rest1 with
        | none => none
        | some (colNo, rest2) => some (file, lineNo, colNo, trimRightCRBytes rest2)

/-- One parsed grep match fed to the producer's `emitMatch`
(producer.go). -/
structure GrepMatch where
  file : List Char
  line : Int
  col : Int
  text : List Char
  deriving Repr, DecidableEq

/-- Source `emitMatch` inside `StartProducer` (producer.go), iterated
over the parsed matches: clean the path, drop the record when its
`(cleaned file, line, col)` was already seen, otherwise increment the
id counter and emit the enriched candidate.  `cleanFn` is
`filepath.Clean`, `keyFn` is `ExtractKey`, `langFn` is `lang.Detect`
(path cleaning, key extraction and language detection do not influence
the dedupe/id claims and are taken as parameters); the channel send and
cancellation affect only where emission stops, not the emitted
sequence. -/
def emitMatches (U : UnicodeTables) (cleanFn : List Char → List Char)
    (keyFn : List Char → List Char → List Char) (langFn : List Char → List Char) :
    List GrepMatch → List (List Char × Int × Int) → Int → List Candidate
  | [], _, _ => []
  | m :: rest, seen, lastId =>
    let cleanFile := cleanFn m.file
    let loc := (cleanFile, m.line, m.col)
    if loc ∈ seen then emitMatches U cleanFn keyFn langFn rest seen lastId
    else
      { id := lastId + 1, file := cleanFile, line := m.line, col := m.col,
        text := m.text, key := keyFn m.text cleanFile, langID := langFn cleanFile,
        semanticScore := computeSemanticScore U m.text } ::
        emitMatches U cleanFn keyFn langFn rest (loc :: seen) (lastId + 1)

/-- The candidate stream `StartProducer` (producer.go) emits for a given
sequence of parsed matches: `emitMatches` from the initial empty
seen-set and id counter `0`. -/
def StartProducerEmits (U : UnicodeTables) (cleanFn : List Char → List Char)
    (keyFn : List Char → List Char → List Char) (langFn : List Char → List Char)
    (ms : List GrepMatch) : List Candidate :=
  emitMatches U cleanFn keyFn langFn ms [] 0

/-- Highlighter token categories (the Go `TokenCategory` iota:
Plain, Keyword, Type, Function, String, Number, Comment, Operator,
Error). -/
inductive TokenCategory where
  | plain
  | keyword
  | typeName
  | functionName
  | stringLit
  | number
  | comment
  | operator
  | errorTok
  deriving Repr, DecidableEq, Inhabited

/-- Highlighter span: a rune-indexed half-open run of the display line
(Go `Span{Start, End, Cat}`; the Go field `End` is called `stop` here
because `end` is reserved in Lean). -/
structure Span where
  start : Int
  stop : Int
  cat : TokenCategory
  deriving Repr, DecidableEq, Inhabited

/-- Comparator of the `sort.Slice` call in source `normalizeSpans`
(start ascending, then end ascending), as a non-strict order for the
modelling insertion sort.  Spans equal in both start and end but with
different categories are ordered arbitrarily by `sort.Slice`; the
theorems below do not depend on that tie order. -/
def spanSortLe (a b : Span) : Prop :=
  a.start < b.start ∨ (a.start = b.start ∧ a.stop ≤ b.stop)

instance : DecidableRel spanSortLe := fun a b => by
  unfold spanSortLe; infer_instance

/-- Source `appendMergedSpan` (highlighter): skip empty runs, extend
the previous output span in place when the new run abuts it with the
same category, else append. -/
def appendMergedSpan (spans : List Span) (start stopV : Int)
    (cat : TokenCategory) : List Span :=
  if stopV ≤ start then spans
  else
    match spans.getLast? with
    | some last =>
      if last.stop == start && last.cat == cat then
        spans.dropLast ++ [⟨last.start, stopV, last.cat⟩]
      else spans ++ [⟨start, stopV, cat⟩]
    | none => spans ++ [⟨start, stopV, cat⟩]

/-- One iteration of the output-building loop of source
`normalizeSpans` (highlighter): clamp the span start to the cursor,
fill any gap with a Plain run through `appendMergedSpan`, append the
span itself through `appendMergedSpan`, advance the cursor. -/
def normStep (st : List Span × Int) (s : Span) : List Span × Int :=
  let out := st.1
  let cursor := st.2
  let start := if s.start < cursor then cursor else s.start
  if s.stop ≤ start then (out, cursor)
  else
    let out1 := if start > cursor then appendMergedSpan out cursor start TokenCategory.plain
      else out
    (appendMergedSpan out1 start s.stop s.cat, s.stop)

/-- Source `normalizeSpans` (highlighter): clamp spans to
`[0, runeLen)`, drop empty ones, sort by (start, end), run the
output-building loop, and fill the tail with Plain through
`appendMergedSpan`.  An empty or fully-clamped-away input leaves the
loop with cursor 0, so the tail filler alone produces the all-Plain
cover. -/
def normalizeSpans (spans : List Span) (runeLen : Int) : List Span :=
  if runeLen ≤ 0 then []
  else
    let clean := spans.filterMap (fun s =>
      let st := if s.start < 0 then 0 else s.start
      let en := if s.stop > runeLen then runeLen else s.stop
      if en ≤ st then none else some (⟨st, en, s.cat⟩ : Span))
    let res := (List.insertionSort spanSortLe clean).foldl normStep ([], 0)
    if res.2 < runeLen then appendMergedSpan res.1 res.2 runeLen TokenCategory.plain
    else res.1

example :
    normalizeSpans [⟨2, 4, TokenCategory.keyword⟩] 6 =
      [⟨0, 2, TokenCategory.plain⟩, ⟨2, 4, TokenCategory.keyword⟩,
        ⟨4, 6, TokenCategory.plain⟩] := by decide

example :
    normalizeSpans [⟨0, 1, TokenCategory.plain⟩] 2 =
      [⟨0, 2, TokenCategory.plain⟩] := by decide

/-- Key-channel acceptance of `scoreCandidate` (the key channel has no
loose-match rejection in the source). -/
def keyChannelOK (U : UnicodeTables) (cand : Candidate)
    (qRaw qLower : List Char) (caseSensitive : Bool) : Bool :=
  (fuzzyScore U cand.key qRaw qLower caseSensitive).isSome

/-- Text-channel acceptance of `scoreCandidate`, after loose-match
rejection. -/
def textChannelOK (U : UnicodeTables) (cand : Candidate)
    (qRaw qLower : List Char) (caseSensitive : Bool) : Bool :=
  let res := fuzzyScore U cand.text qRaw qLower caseSensitive
  res.isSome && !rejectLooseFuzzyMatch (res.getD (0, 0)).1 (res.getD (0, 0)).2
    (nonSpaceRuneCount qLower)

/-- Path-channel acceptance of `scoreCandidate`, after loose-match
rejection. -/
def pathChannelOK (U : UnicodeTables) (cand : Candidate)
    (qRaw qLower : List Char) (caseSensitive : Bool) : Bool :=
  let res := fuzzyScore U cand.file qRaw qLower caseSensitive
  res.isSome && !rejectLooseFuzzyMatch (res.getD (0, 0)).1 (res.getD (0, 0)).2
    (nonSpaceRuneCount qLower)

/-- Raw key-channel fuzzy score of `scoreCandidate` (zero when the
channel failed, as in the Go multi-return). -/
def keyChannelScore (U : UnicodeTables) (cand : Candidate)
    (qRaw qLower : List Char) (caseSensitive : Bool) : Int :=
  ((fuzzyScore U cand.key qRaw qLower caseSensitive).getD (0, 0)).1

/-- Raw text-channel fuzzy score of `scoreCandidate`. -/
def textChannelScore (U : UnicodeTables) (cand : Candidate)
    (qRaw qLower : List Char) (caseSensitive : Bool) : Int :=
  ((fuzzyScore U cand.text qRaw qLower caseSensitive).getD (0, 0)).1

/-- Raw path-channel fuzzy score of `scoreCandidate`. -/
def pathChannelScore (U : UnicodeTables) (cand : Candidate)
    (qRaw qLower : List Char) (caseSensitive : Bool) : Int :=
  ((fuzzyScore U cand.file qRaw qLower caseSensitive).getD (0, 0)).1

/-- The score composition exactly as the specification states it:
start at `INT32_MIN/2 = -1073741824`; if the key matched take the max
with `3000 + key_score*3` and add the semantic weight; if the text
matched take the max with `1800 + text_score*2 - 60`; if the path
matched take the max with `1200 + path_score - 120`; add `80` when both
key and text matched. -/
def composedScoreClaim (keyOK textOK pathOK : Bool)
    (keyScore textScore pathScore sem : Int) : Int :=
  let s0 : Int := -1073741824
  let s1 := if keyOK then max s0 (3000 + keyScore * 3) else s0
  let s2 := if keyOK then s1 + sem else s1
  let s3 := if textOK then max s2 (1800 + textScore * 2 - 60) else s2
  let s4 := if pathOK then max s3 (1200 + pathScore - 120) else s3
  if keyOK && textOK then s4 + 80 else s4

/-- The score composition the code actually performs, written with
exact integer arithmetic: start at `-2^20 = -1048576`, take the channel
maxima, then add the semantic weight if the key matched, then add `80`
if both key and text matched. -/
def composedScoreCode (keyOK textOK pathOK : Bool)
    (keyScore textScore pathScore sem : Int) : Int :=
  let s0 : Int := -1048576
  let s1 := if keyOK then max s0 (3000 + keyScore * 3) else s0
  let s2 := if textOK then max s1 (1800 + textScore * 2 - 60) else s1
  let s3 := if pathOK then max s2 (1200 + pathScore - 120) else s2
  let s4 := if keyOK then s3 + sem else s3
  if keyOK && textOK then s4 + 80 else s4

/-- A concrete candidate used to instantiate witnesses. -/
def demoCand : Candidate :=
  { id := 1, file := "a.go".data, line := 3, col := 2, text := "t".data,
    key := "k".data, langID := [], semanticScore := 7 }

theorem trimRunes_eq_nil_of_all_space {query : List Char}
    (hq : ∀ c ∈ query, goIsSpace c) : TrimRunes query = [] := by
  unfold TrimRunes
  have h1 : query.dropWhile goIsSpace = [] :=
    List.dropWhile_eq_nil_iff.mpr (fun x hx => hq x hx)
  rw [h1]
  rfl

/-- C6: for every candidate set, filtering with an empty query — and
equally with a query consisting only of whitespace — returns all
candidates in candidate-index order, each with score 0 and no
open_line/open_col override. -/
theorem C6_empty_query_returns_all (U : UnicodeTables) (cands : List Candidate) :
    FilterCandidates U cands [] =
      (List.range cands.length).map
        (fun i : Nat => { index := wrap32 (i : Int), score := 0, openLine := 0, openCol := 0 }) ∧
    (∀ query : List Char, (∀ c ∈ query, goIsSpace c) →
      FilterCandidates U cands query =
        (List.range cands.length).map
          (fun i : Nat => { index := wrap32 (i : Int), score := 0, openLine := 0, openCol := 0 })) := by
  have key : ∀ query : List Char, TrimRunes query = [] →
      FilterCandidates U cands query =
        (List.range cands.length).map
          (fun i : Nat => { index := wrap32 (i : Int), score := 0, openLine := 0, openCol := 0 }) := by
    intro query ht
    unfold FilterCandidates FilterCandidatesWithQueryRunes filterCandidatesCore
    rw [ht]
    rfl
  refine ⟨key [] rfl, fun query hq => key query (trimRunes_eq_nil_of_all_space hq)⟩

/-- Witness for C6: a one-space query over a one-candidate set returns
that candidate in index order with score 0. -/
theorem C6_witness :
    (∀ c ∈ [' '], goIsSpace c) ∧
      FilterCandidates asciiTables [demoCand] [' '] =
        [{ index := 0, score := 0, openLine := 0, openCol := 0 }] := by
  refine ⟨by decide, ?_⟩
  have h := (C6_empty_query_returns_all asciiTables [demoCand]).2 [' '] (by decide)
  rw [h]
  decide

/-- ASCII bytes of a string literal. -/
def strBytes (s : String) : List Nat :=
  s.data.map Char.toNat

theorem wrap64_add_multiple (x t : Int) :
    wrap64 (x + 18446744073709551616 * t) = wrap64 x := by
  unfold wrap64
  have h : x + 18446744073709551616 * t + 9223372036854775808 =
      x + 9223372036854775808 + 18446744073709551616 * t := by ring
  rw [h, Int.add_mul_emod_self_left]

theorem wrap64_shift (x : Int) : ∃ t, wrap64 x = x + 18446744073709551616 * t := by
  refine ⟨-((x + 9223372036854775808) / 18446744073709551616), ?_⟩
  unfold wrap64
  rw [Int.emod_def]
  ring

/-- The wrapped accumulator always equals the wrap of the exact decimal
value. -/
theorem digitsValue_eq_wrap_decimal (d : List Nat) :
    digitsValue d = wrap64 (decimalValue d) := by
  have key : ∀ (l : List Nat) (acc : Int),
      l.foldl (fun (v : Int) (b : Nat) => wrap64 (v * 10 + ((b : Int) - 48))) (wrap64 acc) =
        wrap64 (l.foldl (fun (v : Int) (b : Nat) => v * 10 + ((b : Int) - 48)) acc) := by
    intro l
    induction l with
    | nil => intro acc; simp
    | cons b l ih =>
      intro acc
      simp only [List.foldl_cons]
      obtain ⟨t, ht⟩ := wrap64_shift acc
      have h : wrap64 acc * 10 + ((b : Int) - 48) =
          acc * 10 + ((b : Int) - 48) + 18446744073709551616 * (t * 10) := by
        rw [ht]; ring
      rw [h, wrap64_add_multiple, ih]
  have h0 : (0 : Int) = wrap64 0 := by decide
  unfold digitsValue decimalValue
  conv_lhs => rw [h0]
  exact key d 0

theorem findIdx?_append_cons {p : Nat → Bool} (d rest : List Nat) (b : Nat)
    (hd : ∀ x ∈ d, p x = false) (hb : p b = true) :
    List.findIdx? p (d ++ b :: rest) = some d.length := by
  have aux : ∀ (l : List Nat) (i : Nat), (∀ x ∈ l, p x = false) →
      List.findIdx? p (l ++ b :: rest) i = some (i + l.length) := by
    intro l
    induction l with
    | nil => intro i _; simp [List.findIdx?_cons, hb]
    | cons a l ih =>
      intro i hl
      have ha : p a = false := hl a (by simp)
      simp only [List.cons_append, List.findIdx?_cons, ha]
      rw [if_neg (by simp)]
      rw [ih (i + 1) (fun x hx => hl x (by simp [hx]))]
      congr 1
      simp
      omega
  have := aux d 0 hd
  simpa using this

/-- An all-digit byte never equals the colon byte. -/
theorem digit_ne_colon {b : Nat} (h : isDigitByte b = true) : (b == 58) = false := by
  unfold isDigitByte at h
  simp only [Bool.and_eq_true, decide_eq_true_eq] at h
  simp only [beq_eq_false_iff_ne]
  omega

/-- Soundness of `parsePositiveIntField`: a successful parse decomposes
the input as a non-empty all-digit field, a colon, and the returned
remainder, with the wrapped positive value. -/
theorem parsePositiveIntField_sound {raw : List Nat} {v : Int} {rest : List Nat}
    (h : parsePositiveIntField raw = some (v, rest)) :
    ∃ d, raw = d ++ 58 :: rest ∧ d ≠ [] ∧ (∀ b ∈ d, isDigitByte b) ∧
      digitsValue d = v ∧ 0 < v := by
  unfold parsePositiveIntField at h
  cases hidx : List.findIdx? (fun b => b == 58) raw with
  | none => rw [hidx] at h; exact absurd h (by simp)
  | some sep =>
    rw [hidx] at h
    simp only at h
    rcases List.findIdx?_eq_some_iff_getElem.mp hidx with ⟨hlt, hpb, hmin⟩
    by_cases hsep0 : sep = 0
    · rw [if_pos hsep0] at h; exact absurd h (by simp)
    rw [if_neg hsep0] at h
    by_cases hdig : (raw.take sep).all isDigitByte
    · rw [if_pos hdig] at h
      by_cases hle : digitsValue (raw.take sep) ≤ 0
      · rw [if_pos hle] at h; exact absurd h (by simp)
      · rw [if_neg hle] at h
        injection h with h1
        injection h1 with hv hrest
        refine ⟨raw.take sep, ?_, ?_, ?_, ?_, ?_⟩
        · rw [← hrest]
          have hd := List.drop_eq_getElem_cons hlt
          have hb : raw[sep] = 58 := by
            have := hpb
            simpa using this
          conv_lhs => rw [← List.take_append_drop sep raw]
          rw [hd, hb]
        · intro hnil
          have hlen : (raw.take sep).length = sep := by
            rw [List.length_take]; omega
          rw [hnil] at hlen
          simp at hlen
          omega
        · exact fun b hb => List.all_eq_true.mp hdig b hb
        · exact hv
        · omega
    · rw [if_neg hdig] at h; exact absurd h (by simp)

/-- Completeness of `parsePositiveIntField` on a well-formed field:
the only remaining rejection is the positivity check on the wrapped
value. -/
theorem parsePositiveIntField_complete (d rest : List Nat)
    (hne : d ≠ []) (hdig : ∀ b ∈ d, isDigitByte b) :
    parsePositiveIntField (d ++ 58 :: rest) =
      if digitsValue d ≤ 0 then none else some (digitsValue d, rest) := by
  unfold parsePositiveIntField
  rw [findIdx?_append_cons d rest 58 (fun x hx => digit_ne_colon (hdig x hx)) (by simp)]
  simp only
  rw [if_neg (by simpa using hne)]
  have htake : (d ++ 58 :: rest).take d.length = d := List.take_left d (58 :: rest)
  have hdrop : (d ++ 58 :: rest).drop (d.length + 1) = rest := by
    have : d ++ 58 :: rest = (d ++ [58]) ++ rest := by simp
    rw [this]
    have hlen : d.length + 1 = (d ++ [58]).length := by simp
    rw [hlen, List.drop_left]
  rw [htake, hdrop, if_pos (List.all_eq_true.mpr hdig)]

/-- C4: the grep record parser splits a raw record at the first NUL
into the file path (colons in the path preserved), then reads two
colon-delimited positive integer fields as line and col, and takes the
remainder with trailing CR stripped as text; records missing the NUL,
with a non-digit in either integer field, or with a zero or missing
line or col are rejected.  The concrete bytes
`pkg:2024:10:module/file.go NUL 41:9:12:34 payload` parse to that file,
line 41, col 9, text `12:34 payload`. -/
theorem C4_grep_record_parsing :
    parseRGVimgrepLine
        (strBytes "pkg:2024:10:module/file.go" ++ [0] ++ strBytes "41:9:12:34 payload") =
      some (strBytes "pkg:2024:10:module/file.go", 41, 9, strBytes "12:34 payload") ∧
    (∀ raw : List Nat, (∀ b ∈ raw, b ≠ 0) → parseRGVimgrepLine raw = none) ∧
    (∀ raw file lineNo colNo text,
      parseRGVimgrepLine raw = some (file, lineNo, colNo, text) →
      0 < lineNo ∧ 0 < colNo ∧ file ≠ [] ∧ (∀ b ∈ file, b ≠ 0) ∧
      ∃ d1 d2 rest, raw = file ++ 0 :: (d1 ++ 58 :: (d2 ++ 58 :: rest)) ∧
        d1 ≠ [] ∧ d2 ≠ [] ∧ (∀ b ∈ d1, isDigitByte b) ∧ (∀ b ∈ d2, isDigitByte b) ∧
        digitsValue d1 = lineNo ∧ digitsValue d2 = colNo ∧
        text = trimRightCRBytes rest) := by
  refine ⟨by decide, ?_, ?_⟩
  · intro raw hraw
    unfold parseRGVimgrepLine
    rw [List.findIdx?_eq_none_iff.mpr
      (fun x hx => by simpa using hraw x hx)]
  · intro raw file lineNo colNo text h
    unfold parseRGVimgrepLine at h
    cases hidx : List.findIdx? (fun b => b == 0) raw with
    | none => rw [hidx] at h; exact absurd h (by simp)
    | some nul =>
      rw [hidx] at h
      simp only at h
      rcases List.findIdx?_eq_some_iff_getElem.mp hidx with ⟨hlt, hpb, hmin⟩
      by_cases hguard : nul = 0 ∨ nul + 1 ≥ raw.length
      · rw [if_pos hguard] at h; exact absurd h (by simp)
      rw [if_neg hguard] at h
      cases hp1 : parsePositiveIntField (raw.drop (nul + 1)) with
      | none => rw [hp1] at h; exact absurd h (by simp)
      | some lr =>
        obtain ⟨lv, rest1⟩ := lr
        rw [hp1] at h
        simp only at h
        cases hp2 : parsePositiveIntField rest1 with
        | none => rw [hp2] at h; exact absurd h (by simp)
        | some cr =>
          obtain ⟨cv, rest2⟩ := cr
          rw [hp2] at h
          simp only [Option.some.injEq, Prod.mk.injEq] at h
          obtain ⟨hfile, hline, hcol, htext⟩ := h
          rcases parsePositiveIntField_sound hp1 with ⟨d1, hd1eq, hd1ne, hd1dig, hd1v, hd1pos⟩
          rcases parsePositiveIntField_sound hp2 with ⟨d2, hd2eq, hd2ne, hd2dig, hd2v, hd2pos⟩
          have hnul0 : ¬ nul = 0 := fun hc => hguard (Or.inl hc)
          refine ⟨by omega, by omega, ?_, ?_, d1, d2, rest2, ?_, hd1ne, hd2ne,
            hd1dig, hd2dig, by omega, by omega, htext.symm⟩
          · rw [← hfile]
            intro hnil
            have hlen : (raw.take nul).length = nul := by
              rw [List.length_take]; omega
            rw [hnil] at hlen
            simp at hlen
            omega
          · rw [← hfile]
            intro b hb
            rcases List.getElem_of_mem hb with ⟨i, hi, hgi⟩
            have hi' : i < nul := by
              have := hi
              rw [List.length_take] at this
              omega
            have := hmin i hi'
            have hraw : raw[i] = b := by
              rw [← hgi]
              exact (List.getElem_take raw).symm
            simp [hraw] at this
            exact fun hb0 => this (by omega)
          · have hsplit : raw = raw.take nul ++ raw[nul] :: raw.drop (nul + 1) := by
              conv_lhs => rw [← List.take_append_drop nul raw]
              rw [List.drop_eq_getElem_cons hlt]
            have hb0 : raw[nul] = 0 := by simpa using hpb
            rw [hsplit, hb0, ← hfile, hd1eq, hd2eq]

/-- Witness for C4: a record without a NUL byte is rejected, and the
structural conclusion holds at the concrete example record. -/
theorem C4_witness :
    parseRGVimgrepLine (strBytes "pkg:41:9:text") = none ∧
    (0 : Int) < 41 := by
  refine ⟨C4_grep_record_parsing.2.1 (strBytes "pkg:41:9:text") (by decide), ?_⟩
  have h := C4_grep_record_parsing.2.2
    (strBytes "pkg:2024:10:module/file.go" ++ [0] ++ strBytes "41:9:12:34 payload")
    (strBytes "pkg:2024:10:module/file.go") 41 9 (strBytes "12:34 payload")
    C4_grep_record_parsing.1
  exact h.1

set_option maxRecDepth 8000 in
/-- C10: the positive-integer field parser accumulates digits with no
overflow or length check; on every non-empty all-digit field it
terminates with the wrapped (mod 2^64, two's complement) value of the
written decimal number, and rejects only through the positivity check.
For the 20-digit field `18446744073709551617` (2^64 + 1) the wrapped
value is 1, so the record is accepted with a line number different from
the decimal value written. -/
theorem C10_parse_int_overflow_wraps :
    (∀ d rest : List Nat, d ≠ [] → (∀ b ∈ d, isDigitByte b) →
      parsePositiveIntField (d ++ 58 :: rest) =
        if digitsValue d ≤ 0 then none else some (digitsValue d, rest)) ∧
    (∀ d : List Nat, digitsValue d = wrap64 (decimalValue d)) ∧
    parseRGVimgrepLine (strBytes "f" ++ [0] ++ strBytes "18446744073709551617:9:x") =
      some (strBytes "f", 1, 9, strBytes "x") ∧
    decimalValue (strBytes "18446744073709551617") = 18446744073709551617 ∧
    digitsValue (strBytes "18446744073709551617") = 1 ∧
    (1 : Int) ≠ 18446744073709551617 := by
  refine ⟨parsePositiveIntField_complete, digitsValue_eq_wrap_decimal,
    by decide, by decide, by decide, by decide⟩

/-- Witness for C10: the completeness part applied to the concrete
field `41` followed by a colon. -/
theorem C10_witness :
    ([52, 49] : List Nat) ≠ [] ∧
      parsePositiveIntField ([52, 49] ++ 58 :: strBytes "9:x") =
        if digitsValue [52, 49] ≤ 0 then none
        else some (digitsValue [52, 49], strBytes "9:x") := by
  refine ⟨by decide, ?_⟩
  exact C10_parse_int_overflow_wraps.1 [52, 49] (strBytes "9:x") (by decide) (by decide)

/-- The list of spans tiles the half-open interval from `a` to `b`:
consecutive, non-empty, gap-free. -/
def Tiles : List Span → Int → Int → Prop
  | [], a, b => a = b
  | s :: rest, a, b => s.start = a ∧ a < s.stop ∧ Tiles rest s.stop b

theorem tiles_snoc (l : List Span) (e : Span) (a b : Int) :
    Tiles (l ++ [e]) a b ↔ Tiles l a e.start ∧ e.start < e.stop ∧ e.stop = b := by
  induction l generalizing a with
  | nil =>
    simp only [List.nil_append, Tiles]
    omega
  | cons s rest ih =>
    simp only [List.cons_append, Tiles]
    constructor
    · rintro ⟨h1, h2, h3⟩
      rcases (ih s.stop).mp h3 with ⟨g1, g2, g3⟩
      exact ⟨⟨h1, h2, g1⟩, g2, g3⟩
    · rintro ⟨⟨h1, h2, g1⟩, g2, g3⟩
      exact ⟨h1, h2, (ih s.stop).mpr ⟨g1, g2, g3⟩⟩

theorem tiles_le {l : List Span} {a b : Int} (h : Tiles l a b) : a ≤ b := by
  induction l generalizing a with
  | nil => simp [Tiles] at h; omega
  | cons s rest ih =>
    obtain ⟨_, h2, h3⟩ := h
    have := ih h3
    omega

theorem tiles_bounds {l : List Span} {a b : Int} (h : Tiles l a b) :
    ∀ s ∈ l, a ≤ s.start ∧ s.start < s.stop ∧ s.stop ≤ b := by
  induction l generalizing a with
  | nil => simp
  | cons x rest ih =>
    obtain ⟨h1, h2, h3⟩ := h
    intro s hs
    rcases List.mem_cons.mp hs with hs | hs
    · subst hs
      exact ⟨le_of_eq h1.symm, h1 ▸ h2, tiles_le h3⟩
    · have := ih h3 s hs
      omega

theorem tiles_chain {l : List Span} {a b : Int} (h : Tiles l a b) :
    List.Chain' (fun x y => x.stop = y.start) l := by
  induction l generalizing a with
  | nil => simp
  | cons x rest ih =>
    obtain ⟨h1, h2, h3⟩ := h
    cases rest with
    | nil => simp
    | cons y rest2 =>
      obtain ⟨hy1, hy2, hy3⟩ := h3
      exact List.Chain'.cons hy1.symm (ih ⟨hy1, hy2, hy3⟩)

theorem tiles_head {l : List Span} {a b : Int} (h : Tiles l a b) :
    ∀ x, l.head? = some x → x.start = a := by
  cases l with
  | nil => simp
  | cons s rest =>
    intro x hx
    simp only [List.head?_cons, Option.some.injEq] at hx
    subst hx
    exact h.1

theorem tiles_last {l : List Span} {a b : Int} (h : Tiles l a b) :
    ∀ x, l.getLast? = some x → x.stop = b := by
  induction l generalizing a with
  | nil => simp
  | cons s rest ih =>
    intro x hx
    cases rest with
    | nil =>
      simp only [List.getLast?_singleton, Option.some.injEq] at hx
      subst hx
      obtain ⟨_, _, h3⟩ := h
      exact h3
    | cons y rest2 =>
      rw [List.getLast?_cons_cons] at hx
      exact ih h.2.2 x hx

theorem appendMergedSpan_tiles (out : List Span) (start stopV : Int)
    (cat : TokenCategory) (h : Tiles out 0 start)
    (hch : List.Chain' (fun a b => a.cat ≠ b.cat) out) (hlt : start < stopV) :
    Tiles (appendMergedSpan out start stopV cat) 0 stopV ∧
    List.Chain' (fun a b => a.cat ≠ b.cat) (appendMergedSpan out start stopV cat) := by
  unfold appendMergedSpan
  rw [if_neg (by omega)]
  cases hlast : out.getLast? with
  | none =>
    have hnil : out = [] := by
      cases hh : out with
      | nil => rfl
      | cons a l => rw [hh] at hlast; simp [List.getLast?_cons] at hlast
    dsimp only
    rw [hnil, List.nil_append]
    rw [hnil] at h
    have h0 : start = 0 := h.symm
    refine ⟨⟨h0, ?_, rfl⟩, List.chain'_singleton _⟩
    show (0 : Int) < stopV
    omega
  | some last =>
    dsimp only
    have hne : out ≠ [] := by
      intro hc; rw [hc] at hlast; simp at hlast
    have hsplit : out.dropLast ++ [last] = out := by
      have hg := List.getLast?_eq_getLast out hne
      rw [hlast] at hg
      injection hg with hlast2
      rw [hlast2]
      exact List.dropLast_append_getLast hne
    rw [← hsplit] at h hch
    rcases (tiles_snoc _ _ _ _).mp h with ⟨hpre, hll, hle⟩
    rcases List.chain'_append.mp hch with ⟨hchpre, -, hchrel⟩
    by_cases hmerge : (last.stop == start && last.cat == cat) = true
    · rw [if_pos hmerge]
      refine ⟨(tiles_snoc _ _ _ _).mpr ⟨hpre, ?_, rfl⟩, ?_⟩
      · show last.start < stopV
        omega
      · refine List.chain'_append.mpr ⟨hchpre, List.chain'_singleton _, ?_⟩
        intro x hx y hy
        simp only [List.head?_cons, Option.mem_def, Option.some.injEq] at hy
        have := hchrel x hx last (by simp)
        rw [← hy]
        exact this
    · rw [if_neg hmerge]
      have hcne : last.cat ≠ cat := by
        intro hc
        apply hmerge
        rw [Bool.and_eq_true]
        exact ⟨beq_iff_eq.mpr hle, beq_iff_eq.mpr hc⟩
      constructor
      · exact (tiles_snoc _ _ _ _).mpr ⟨hsplit ▸ h, hlt, rfl⟩
      · rw [← hsplit]
        refine List.chain'_append.mpr ⟨hch, List.chain'_singleton _, ?_⟩
        intro x hx y hy
        simp only [List.head?_cons, Option.mem_def, Option.some.injEq] at hy
        have hxlast : x = last := by
          rw [hsplit, hlast] at hx
          exact (by simpa using hx : last = x).symm
        rw [← hy, hxlast]
        exact hcne

theorem normStep_tiles (R : Int) {out : List Span} {cursor : Int} {s : Span}
    (h : Tiles out 0 cursor)
    (hch : List.Chain' (fun a b => a.cat ≠ b.cat) out)
    (hs0 : 0 ≤ s.start) (hsR : s.stop ≤ R)
    (hc0 : 0 ≤ cursor) (hcR : cursor ≤ R) :
    Tiles (normStep (out, cursor) s).1 0 (normStep (out, cursor) s).2 ∧
      List.Chain' (fun a b => a.cat ≠ b.cat) (normStep (out, cursor) s).1 ∧
      0 ≤ (normStep (out, cursor) s).2 ∧ (normStep (out, cursor) s).2 ≤ R := by
  unfold normStep
  dsimp only
  by_cases hskip : s.stop ≤ (if s.start < cursor then cursor else s.start)
  · rw [if_pos hskip]
    exact ⟨h, hch, hc0, hcR⟩
  · rw [if_neg hskip]
    dsimp only
    set start := if s.start < cursor then cursor else s.start with hstartdef
    have hstartc : cursor ≤ start ∧ 0 ≤ start := by
      rw [hstartdef]; split <;> omega
    have hstop : start < s.stop := by omega
    have hout1 : Tiles (if start > cursor then
          appendMergedSpan out cursor start TokenCategory.plain else out) 0 start ∧
        List.Chain' (fun a b => a.cat ≠ b.cat)
          (if start > cursor then
            appendMergedSpan out cursor start TokenCategory.plain else out) := by
      by_cases hgap : start > cursor
      · rw [if_pos hgap]
        exact appendMergedSpan_tiles out cursor start TokenCategory.plain h hch hgap
      · rw [if_neg hgap]
        have hsc : start = cursor := by omega
        rw [hsc]
        exact ⟨h, hch⟩
    have hres := appendMergedSpan_tiles _ start s.stop s.cat hout1.1 hout1.2 hstop
    exact ⟨hres.1, hres.2, by omega, hsR⟩

theorem fold_normStep_tiles (R : Int) (l : List Span)
    (hl : ∀ s ∈ l, 0 ≤ s.start ∧ s.stop ≤ R) :
    ∀ out cursor, Tiles out 0 cursor →
      List.Chain' (fun a b => a.cat ≠ b.cat) out → 0 ≤ cursor → cursor ≤ R →
      Tiles (l.foldl normStep (out, cursor)).1 0 (l.foldl normStep (out, cursor)).2 ∧
        List.Chain' (fun a b => a.cat ≠ b.cat) (l.foldl normStep (out, cursor)).1 ∧
        0 ≤ (l.foldl normStep (out, cursor)).2 ∧ (l.foldl normStep (out, cursor)).2 ≤ R := by
  induction l with
  | nil => intro out cursor h hch h0 hR; exact ⟨h, hch, h0, hR⟩
  | cons s rest ih =>
    intro out cursor h hch h0 hR
    have hs := hl s (by simp)
    have hstep := normStep_tiles R h hch hs.1 hs.2 h0 hR
    have hrest : ∀ x ∈ rest, 0 ≤ x.start ∧ x.stop ≤ R :=
      fun x hx => hl x (by simp [hx])
    have := ih hrest (normStep (out, cursor) s).1 (normStep (out, cursor) s).2
      hstep.1 hstep.2.1 hstep.2.2.1 hstep.2.2.2
    simpa using this

theorem tiles_single (a b : Int) (c : TokenCategory) (h : a < b) :
    Tiles [⟨a, b, c⟩] a b :=
  ⟨rfl, h, rfl⟩

theorem normalizeSpans_tiles (spans : List Span) (runeLen : Int)
    (hpos : 0 < runeLen) :
    Tiles (normalizeSpans spans runeLen) 0 runeLen ∧
    List.Chain' (fun a b => a.cat ≠ b.cat) (normalizeSpans spans runeLen) := by
  unfold normalizeSpans
  rw [if_neg (by omega)]
  dsimp only
  set clean := spans.filterMap (fun s =>
    let st := if s.start < 0 then 0 else s.start
    let en := if s.stop > runeLen then runeLen else s.stop
    if en ≤ st then none else some (⟨st, en, s.cat⟩ : Span)) with hcleandef
  have hcleanB : ∀ s ∈ clean, 0 ≤ s.start ∧ s.stop ≤ runeLen := by
    intro s hs
    rw [hcleandef] at hs
    rcases List.mem_filterMap.mp hs with ⟨a, _, ha⟩
    dsimp only at ha
    by_cases hcond : (if a.stop > runeLen then runeLen else a.stop) ≤
        (if a.start < 0 then 0 else a.start)
    · rw [if_pos hcond] at ha; exact absurd ha (by simp)
    · rw [if_neg hcond] at ha
      injection ha with ha
      rw [← ha]
      constructor
      · show (0 : Int) ≤ (if a.start < 0 then 0 else a.start)
        split <;> omega
      · show (if a.stop > runeLen then runeLen else a.stop) ≤ runeLen
        split <;> omega
  have hsortB : ∀ s ∈ List.insertionSort spanSortLe clean,
      0 ≤ s.start ∧ s.stop ≤ runeLen := by
    intro s hs
    exact hcleanB s ((List.perm_insertionSort spanSortLe clean).mem_iff.mp hs)
  have hfold := fold_normStep_tiles runeLen
    (List.insertionSort spanSortLe clean) hsortB [] 0 rfl (by simp) (le_refl 0) (by omega)
  set res := (List.insertionSort spanSortLe clean).foldl normStep ([], 0) with hresdef
  by_cases htail : res.2 < runeLen
  · rw [if_pos htail]
    exact appendMergedSpan_tiles res.1 res.2 runeLen TokenCategory.plain
      hfold.1 hfold.2.1 htail
  · rw [if_neg htail]
    have hEq : res.2 = runeLen := by omega
    rw [← hEq]
    exact ⟨hfold.1, hfold.2.1⟩

/-- C8: for every non-empty display line the normalized span list is
non-empty; every span is non-empty and clamped to `[0, rune_count)`;
the spans are contiguous (hence sorted by start, pairwise disjoint,
and covering exactly `[0, rune_count)`, gaps having been filled with
Plain: the first span starts at 0, each span starts where the previous
ends, and the last ends at `rune_count`); and no two adjacent output
spans share the same category (adjacent same-category runs are merged
by `appendMergedSpan`). -/
theorem C8_normalized_span_tiling (spans : List Span) (runeLen : Int)
    (hpos : 0 < runeLen) :
    normalizeSpans spans runeLen ≠ [] ∧
    (∀ s ∈ normalizeSpans spans runeLen,
      0 ≤ s.start ∧ s.start < s.stop ∧ s.stop ≤ runeLen) ∧
    List.Chain' (fun a b => a.stop = b.start) (normalizeSpans spans runeLen) ∧
    (∀ h, (normalizeSpans spans runeLen).head? = some h → h.start = 0) ∧
    (∀ t, (normalizeSpans spans runeLen).getLast? = some t → t.stop = runeLen) ∧
    List.Chain' (fun a b => a.cat ≠ b.cat) (normalizeSpans spans runeLen) := by
  have ht := normalizeSpans_tiles spans runeLen hpos
  refine ⟨?_, ?_, tiles_chain ht.1, tiles_head ht.1, tiles_last ht.1, ht.2⟩
  · intro hc
    rw [hc] at ht
    have : (0 : Int) = runeLen := ht.1
    omega
  · intro s hs
    have := tiles_bounds ht.1 s hs
    omega

/-- Witness for the normalization invariants at a concrete non-empty
line whose single span forces both a merged Plain tail check and the
category chain. -/
theorem C8_witness :
    (0 : Int) < 2 ∧ normalizeSpans [⟨0, 1, TokenCategory.keyword⟩] 2 ≠ [] ∧
    List.Chain' (fun a b => a.cat ≠ b.cat)
      (normalizeSpans [⟨0, 1, TokenCategory.keyword⟩] 2) :=
  ⟨by decide,
    (C8_normalized_span_tiling [⟨0, 1, TokenCategory.keyword⟩] 2 (by decide)).1,
    (C8_normalized_span_tiling [⟨0, 1, TokenCategory.keyword⟩] 2 (by decide)).2.2.2.2.2⟩

/-- First-occurrence deduplication with an explicit seen-set, the shape
of the producer's `seen` map: keep an element iff its key was not seen
before, remembering it afterwards. -/
def dedupeFirstFrom {α : Type} [DecidableEq α] (seen : List α) : List α → List α
  | [] => []
  | a :: rest =>
    if a ∈ seen then dedupeFirstFrom seen rest
    else a :: dedupeFirstFrom (a :: seen) rest

theorem dedupeFirstFrom_not_seen {α : Type} [DecidableEq α] :
    ∀ (l : List α) (seen : List α) (x : α), x ∈ dedupeFirstFrom seen l → x ∉ seen := by
  intro l
  induction l with
  | nil => intro seen x hx; simp [dedupeFirstFrom] at hx
  | cons a rest ih =>
    intro seen x hx
    unfold dedupeFirstFrom at hx
    by_cases ha : a ∈ seen
    · rw [if_pos ha] at hx
      exact ih seen x hx
    · rw [if_neg ha] at hx
      rcases List.mem_cons.mp hx with hx | hx
      · subst hx; exact ha
      · have := ih (a :: seen) x hx
        exact fun hc => this (List.mem_cons.mpr (Or.inr hc))

theorem dedupeFirstFrom_nodup {α : Type} [DecidableEq α] :
    ∀ (l : List α) (seen : List α), (dedupeFirstFrom seen l).Nodup := by
  intro l
  induction l with
  | nil => intro seen; simp [dedupeFirstFrom]
  | cons a rest ih =>
    intro seen
    unfold dedupeFirstFrom
    by_cases ha : a ∈ seen
    · rw [if_pos ha]; exact ih seen
    · rw [if_neg ha]
      refine List.nodup_cons.mpr ⟨?_, ih (a :: seen)⟩
      intro hc
      exact dedupeFirstFrom_not_seen rest (a :: seen) a hc (List.mem_cons_self a seen)

theorem emitMatches_spec (U : UnicodeTables) (cleanFn : List Char → List Char)
    (keyFn : List Char → List Char → List Char) (langFn : List Char → List Char) :
    ∀ (ms : List GrepMatch) (seen : List (List Char × Int × Int)) (lastId : Int),
      (emitMatches U cleanFn keyFn langFn ms seen lastId).map
          (fun c => (c.file, c.line, c.col)) =
        dedupeFirstFrom seen (ms.map (fun m => (cleanFn m.file, m.line, m.col))) ∧
      ∀ k (hk : k < (emitMatches U cleanFn keyFn langFn ms seen lastId).length),
        ((emitMatches U cleanFn keyFn langFn ms seen lastId).get ⟨k, hk⟩).id =
          lastId + 1 + k := by
  intro ms
  induction ms with
  | nil =>
    intro seen lastId
    refine ⟨by simp [emitMatches, dedupeFirstFrom], ?_⟩
    intro k hk
    simp [emitMatches] at hk
  | cons m rest ih =>
    intro seen lastId
    by_cases hseen : (cleanFn m.file, m.line, m.col) ∈ seen
    · have heq : emitMatches U cleanFn keyFn langFn (m :: rest) seen lastId =
          emitMatches U cleanFn keyFn langFn rest seen lastId := by
        conv_lhs => rw [emitMatches]
        rw [if_pos hseen]
      rw [heq]
      refine ⟨?_, (ih seen lastId).2⟩
      simp only [List.map_cons, dedupeFirstFrom]
      rw [if_pos hseen]
      exact (ih seen lastId).1
    · have heq : emitMatches U cleanFn keyFn langFn (m :: rest) seen lastId =
          { id := lastId + 1, file := cleanFn m.file, line := m.line, col := m.col,
            text := m.text, key := keyFn m.text (cleanFn m.file),
            langID := langFn (cleanFn m.file),
            semanticScore := computeSemanticScore U m.text } ::
            emitMatches U cleanFn keyFn langFn rest
              ((cleanFn m.file, m.line, m.col) :: seen) (lastId + 1) := by
        conv_lhs => rw [emitMatches]
        rw [if_neg hseen]
      rw [heq]
      have hih := ih ((cleanFn m.file, m.line, m.col) :: seen) (lastId + 1)
      constructor
      · simp only [List.map_cons, dedupeFirstFrom]
        rw [if_neg hseen, hih.1]
      · intro k hk
        cases k with
        | zero => simp
        | succ k2 =>
          simp only [List.length_cons] at hk
          have := hih.2 k2 (by omega)
          simp only [List.get_cons_succ]
          rw [this]
          omega

/-- C5: for every sequence of parsed grep matches, the emitted
candidate stream has pairwise-distinct `(cleaned file, line, col)`
keys (later duplicates are silently dropped, keeping first
occurrences in order), and the ids are exactly 1, 2, ..., n in
emission order — assigned only after the dedupe check, so a dropped
duplicate never consumes an id. -/
theorem C5_producer_dedupe_and_ids (U : UnicodeTables)
    (cleanFn : List Char → List Char)
    (keyFn : List Char → List Char → List Char) (langFn : List Char → List Char)
    (ms : List GrepMatch) :
    ((StartProducerEmits U cleanFn keyFn langFn ms).map
        (fun c => (c.file, c.line, c.col))).Nodup ∧
    (StartProducerEmits U cleanFn keyFn langFn ms).map
        (fun c => (c.file, c.line, c.col)) =
      dedupeFirstFrom [] (ms.map (fun m => (cleanFn m.file, m.line, m.col))) ∧
    ∀ k (hk : k < (StartProducerEmits U cleanFn keyFn langFn ms).length),
      ((StartProducerEmits U cleanFn keyFn langFn ms).get ⟨k, hk⟩).id = k + 1 := by
  have h := emitMatches_spec U cleanFn keyFn langFn ms [] 0
  unfold StartProducerEmits
  refine ⟨?_, h.1, ?_⟩
  · rw [h.1]
    exact dedupeFirstFrom_nodup _ _
  · intro k hk
    have := h.2 k hk
    omega

/-- Witness for C5 on a concrete match list with a duplicate: the
duplicate is dropped and the first emitted candidate has id 1. -/
theorem C5_witness :
    ((StartProducerEmits asciiTables id (fun _ _ => "k".data) (fun _ => [])
        [⟨"a".data, 1, 1, "t".data⟩, ⟨"a".data, 1, 1, "t".data⟩,
          ⟨"b".data, 2, 3, "u".data⟩]).map
      (fun c => (c.file, c.line, c.col))).Nodup ∧
    ((StartProducerEmits asciiTables id (fun _ _ => "k".data) (fun _ => [])
        [⟨"a".data, 1, 1, "t".data⟩, ⟨"a".data, 1, 1, "t".data⟩,
          ⟨"b".data, 2, 3, "u".data⟩]).get ⟨0, by decide⟩).id = 0 + 1 := by
  have h := C5_producer_dedupe_and_ids asciiTables id (fun _ _ => "k".data)
    (fun _ => [])
    [⟨"a".data, 1, 1, "t".data⟩, ⟨"a".data, 1, 1, "t".data⟩,
      ⟨"b".data, 2, 3, "u".data⟩]
  exact ⟨h.1, h.2.2 0 (by decide)⟩

theorem maxInt32_eq_max (a b : Int) : maxInt32 a b = max a b := by
  unfold maxInt32
  split
  · exact (max_eq_left (by omega)).symm
  · exact (max_eq_right (by omega)).symm

/-- The code's wrapped score composition agrees with the exact-integer
composition whenever the channel scores and the semantic weight are far
from the `int32` boundaries (bounds that hold for every input the
bounded channels can feasibly produce). -/
theorem composeScore_eq_code (keyOK textOK pathOK : Bool) (k t p sem : Int)
    (hk1 : -16777216 ≤ k) (hk2 : k ≤ 16777216)
    (ht1 : -16777216 ≤ t) (ht2 : t ≤ 16777216)
    (hp1 : -16777216 ≤ p) (hp2 : p ≤ 16777216)
    (hs1 : -32768 ≤ sem) (hs2 : sem ≤ 32767) :
    composeScore keyOK textOK pathOK k t p sem =
      composedScoreCode keyOK textOK pathOK k t p sem := by
  have w1 : wrap32 (3000 + k * 3) = 3000 + k * 3 := wrap32_eq_self (by omega) (by omega)
  have w2 : wrap32 (1800 + t * 2 - 60) = 1800 + t * 2 - 60 :=
    wrap32_eq_self (by omega) (by omega)
  have w3 : wrap32 (1200 + p - 120) = 1200 + p - 120 :=
    wrap32_eq_self (by omega) (by omega)
  cases keyOK <;> cases textOK <;> cases pathOK <;>
    simp [composeScore, composedScoreCode, maxInt32_eq_max, w1, w2, w3] <;>
    first
      | omega
      | (simp only [wrap32]; omega)

/-- The fuzzy walk over a run of text runes after the query has been
fully consumed only advances the rune index. -/
theorem foldl_fuzzyStep_stuck (U : UnicodeTables) (qRaw qLower : List Char)
    (cs : Bool) (c : Char) (n : Nat) :
    ∀ st : FuzzyState, qLower.length ≤ st.qi →
      ((List.replicate n c).foldl (fuzzyStep U qRaw qLower cs) st).qi = st.qi ∧
      ((List.replicate n c).foldl (fuzzyStep U qRaw qLower cs) st).score = st.score ∧
      ((List.replicate n c).foldl (fuzzyStep U qRaw qLower cs) st).runeIdx =
        st.runeIdx + n ∧
      ((List.replicate n c).foldl (fuzzyStep U qRaw qLower cs) st).caseMatches =
        st.caseMatches ∧
      ((List.replicate n c).foldl (fuzzyStep U qRaw qLower cs) st).first = st.first ∧
      ((List.replicate n c).foldl (fuzzyStep U qRaw qLower cs) st).last = st.last := by
  induction n with
  | zero => intro st h; simp
  | succ n2 ih =>
    intro st h
    rw [List.replicate_succ, List.foldl_cons]
    have hstep : fuzzyStep U qRaw qLower cs st c =
        { st with
            prev := lowerRuneFast U c
            hasPrev := true
            runeIdx := st.runeIdx + 1 } := by
      unfold fuzzyStep
      rw [if_neg]
      simp only [Bool.and_eq_true, decide_eq_true_eq, not_and]
      intro hlt
      omega
    rw [hstep]
    have := ih
      { st with
          prev := lowerRuneFast U c
          hasPrev := true
          runeIdx := st.runeIdx + 1 } (by simpa using h)
    simp only at this ⊢
    refine ⟨this.1, this.2.1, ?_, this.2.2.2⟩
    rw [this.2.2.1]
    push_cast
    ring

/-- The key of the long-key counterexample candidate: one matching rune
followed by 400000 fillers. -/
def longKey : List Char :=
  'a' :: List.replicate 400000 'x'

theorem fuzzy_longKey :
    fuzzyScore asciiTables longKey "a".data "a".data true = some (-399963, 1) := by
  unfold fuzzyScore
  rw [if_neg (by decide)]
  dsimp only
  rw [if_neg (by decide)]
  rw [if_neg (by decide)]
  unfold longKey
  rw [show skipLeadingSpaces "a".data 0 = 0 from by decide]
  rw [List.foldl_cons]
  rw [show fuzzyStep asciiTables "a".data "a".data true
      { qi := 0, last := -2, first := -1, score := 0, runeIdx := 0,
        prev := Char.ofNat 0, hasPrev := false, caseMatches := 0 } 'a' =
      { qi := 1, last := 0, first := 0, score := 22, runeIdx := 1,
        prev := 'a', hasPrev := true, caseMatches := 1 } from by decide]
  have hrep := foldl_fuzzyStep_stuck asciiTables "a".data "a".data true 'x' 400000
    { qi := 1, last := 0, first := 0, score := 22, runeIdx := 1,
      prev := 'a', hasPrev := true, caseMatches := 1 } (by decide)
  obtain ⟨hqi, hsc, hri, hcm, hfi, hla⟩ := hrep
  rw [hqi, hsc, hri, hcm, hfi, hla]
  norm_num
  decide

/-- The counterexample candidate for the score-composition claim: its
key is long enough to drive the key-channel fuzzy score below the
code's starting constant `-2^20` while staying far above the claimed
starting constant `INT32_MIN/2`. -/
def longKeyCand : Candidate :=
  { id := 1, file := "zz".data, line := 1, col := 1, text := "zz".data,
    key := longKey, langID := [], semanticScore := 5 }

/-- The key channel of a successful fuzzy match: acceptance flag and
raw score in terms of the underlying `fuzzyScore` result. -/
theorem keyChannelScore_of (U : UnicodeTables) (cand : Candidate)
    (qRaw qLower : List Char) (cs : Bool) (p : Int × Int)
    (h : fuzzyScore U cand.key qRaw qLower cs = some p) :
    keyChannelScore U cand qRaw qLower cs = p.1 := by
  unfold keyChannelScore
  rw [h]
  rfl

theorem keyChannelOK_of (U : UnicodeTables) (cand : Candidate)
    (qRaw qLower : List Char) (cs : Bool) (p : Int × Int)
    (h : fuzzyScore U cand.key qRaw qLower cs = some p) :
    keyChannelOK U cand qRaw qLower cs = true := by
  unfold keyChannelOK
  rw [h]
  rfl

theorem textChannelOK_of_none (U : UnicodeTables) (cand : Candidate)
    (qRaw qLower : List Char) (cs : Bool)
    (h : fuzzyScore U cand.text qRaw qLower cs = none) :
    textChannelOK U cand qRaw qLower cs = false := by
  unfold textChannelOK
  rw [h]
  rfl

theorem pathChannelOK_of_none (U : UnicodeTables) (cand : Candidate)
    (qRaw qLower : List Char) (cs : Bool)
    (h : fuzzyScore U cand.file qRaw qLower cs = none) :
    pathChannelOK U cand qRaw qLower cs = false := by
  unfold pathChannelOK
  rw [h]
  rfl

theorem textChannelScore_of_none (U : UnicodeTables) (cand : Candidate)
    (qRaw qLower : List Char) (cs : Bool)
    (h : fuzzyScore U cand.text qRaw qLower cs = none) :
    textChannelScore U cand qRaw qLower cs = 0 := by
  unfold textChannelScore
  rw [h]
  rfl

theorem pathChannelScore_of_none (U : UnicodeTables) (cand : Candidate)
    (qRaw qLower : List Char) (cs : Bool)
    (h : fuzzyScore U cand.file qRaw qLower cs = none) :
    pathChannelScore U cand qRaw qLower cs = 0 := by
  unfold pathChannelScore
  rw [h]
  rfl

/-- C2 counterexample: on `longKeyCand` with query `"a"` the code emits
score `-1048571` (the key channel is clamped at the code's starting
constant `-2^20 = -1048576`, then the semantic weight `5` is added),
while composing the same channel outcomes per the specification text —
starting at `INT32_MIN/2 = -1073741824` — yields `-1196884`. -/
theorem C2_counterexample :
    scoreCandidate asciiTables longKeyCand 0 "a".data "a".data true =
      some { index := 0, score := -1048571, openLine := 0, openCol := 0 } ∧
    composedScoreClaim
        (keyChannelOK asciiTables longKeyCand "a".data "a".data true)
        (textChannelOK asciiTables longKeyCand "a".data "a".data true)
        (pathChannelOK asciiTables longKeyCand "a".data "a".data true)
        (keyChannelScore asciiTables longKeyCand "a".data "a".data true)
        (textChannelScore asciiTables longKeyCand "a".data "a".data true)
        (pathChannelScore asciiTables longKeyCand "a".data "a".data true)
        (candidateSemanticScore asciiTables longKeyCand) = -1196884 ∧
    (-1048571 : Int) ≠ -1196884 := by
  have hk : fuzzyScore asciiTables longKeyCand.key "a".data "a".data true =
      some (-399963, 1) := fuzzy_longKey
  have ht : fuzzyScore asciiTables longKeyCand.text "a".data "a".data true = none := by
    decide
  have hp : fuzzyScore asciiTables longKeyCand.file "a".data "a".data true = none := by
    decide
  refine ⟨?_, ?_, by decide⟩
  · unfold scoreCandidate
    rw [hk, ht, hp]
    rfl
  · rw [keyChannelScore_of asciiTables longKeyCand "a".data "a".data true _ hk,
      keyChannelOK_of asciiTables longKeyCand "a".data "a".data true _ hk,
      textChannelOK_of_none asciiTables longKeyCand "a".data "a".data true ht,
      pathChannelOK_of_none asciiTables longKeyCand "a".data "a".data true hp,
      textChannelScore_of_none asciiTables longKeyCand "a".data "a".data true ht,
      pathChannelScore_of_none asciiTables longKeyCand "a".data "a".data true hp]
    rfl

/-- C2 (amended): every accepted candidate's score is the exact-integer
composition that starts at `-2^20 = -1048576` (not `INT32_MIN/2`), takes
the channel maxima `3000 + key_score*3`, `1800 + text_score*2 - 60`,
`1200 + path_score - 120` for the surviving channels, then adds the
semantic weight when the key matched, then adds `80` when both key and
text matched — under conservative bounds keeping every intermediate
value inside `int32`. -/
theorem C2_score_composition (U : UnicodeTables) (cand : Candidate) (index : Int)
    (qRaw qLower : List Char) (cs : Bool) (item : FilteredCandidate)
    (hsome : scoreCandidate U cand index qRaw qLower cs = some item)
    (hk1 : -16777216 ≤ keyChannelScore U cand qRaw qLower cs)
    (hk2 : keyChannelScore U cand qRaw qLower cs ≤ 16777216)
    (ht1 : -16777216 ≤ textChannelScore U cand qRaw qLower cs)
    (ht2 : textChannelScore U cand qRaw qLower cs ≤ 16777216)
    (hp1 : -16777216 ≤ pathChannelScore U cand qRaw qLower cs)
    (hp2 : pathChannelScore U cand qRaw qLower cs ≤ 16777216)
    (hs1 : -32768 ≤ candidateSemanticScore U cand)
    (hs2 : candidateSemanticScore U cand ≤ 32767) :
    item.score =
      composedScoreCode
        (keyChannelOK U cand qRaw qLower cs)
        (textChannelOK U cand qRaw qLower cs)
        (pathChannelOK U cand qRaw qLower cs)
        (keyChannelScore U cand qRaw qLower cs)
        (textChannelScore U cand qRaw qLower cs)
        (pathChannelScore U cand qRaw qLower cs)
        (candidateSemanticScore U cand) := by
  unfold scoreCandidate at hsome
  dsimp only at hsome
  split at hsome
  · exact Option.noConfusion hsome
  · rw [Option.some.injEq] at hsome
    have hscore := congrArg FilteredCandidate.score hsome
    dsimp only at hscore
    rw [← hscore]
    exact composeScore_eq_code _ _ _ _ _ _ _ hk1 hk2 ht1 ht2 hp1 hp2 hs1 hs2

/-- Witness for the amended score-composition theorem at a concrete
candidate and query. -/
theorem C2_witness :
    scoreCandidate asciiTables demoCand 0 "k".data "k".data true =
      some { index := 0, score := 3235, openLine := 0, openCol := 0 } ∧
    ({ index := 0, score := 3235, openLine := 0, openCol := 0 } : FilteredCandidate).score =
      composedScoreCode
        (keyChannelOK asciiTables demoCand "k".data "k".data true)
        (textChannelOK asciiTables demoCand "k".data "k".data true)
        (pathChannelOK asciiTables demoCand "k".data "k".data true)
        (keyChannelScore asciiTables demoCand "k".data "k".data true)
        (textChannelScore asciiTables demoCand "k".data "k".data true)
        (pathChannelScore asciiTables demoCand "k".data "k".data true)
        (candidateSemanticScore asciiTables demoCand) :=
  ⟨by decide,
    C2_score_composition asciiTables demoCand 0 "k".data "k".data true
      { index := 0, score := 3235, openLine := 0, openCol := 0 }
      (by decide) (by decide) (by decide) (by decide) (by decide)
      (by decide) (by decide) (by decide) (by decide)⟩

/-- Dropping the longest space run leaves a list whose own leading
space run is empty. -/
theorem takeWhile_dropWhile_nil {α : Type} (p : α → Bool) (l : List α) :
    (l.dropWhile p).takeWhile p = [] := by
  induction l with
  | nil => rfl
  | cons a l2 ih =>
    by_cases h : p a = true
    · rw [List.dropWhile_cons_of_pos h]
      exact ih
    · rw [List.dropWhile_cons_of_neg h, List.takeWhile_cons_of_neg h]

/-- Skipping leading spaces is idempotent from the start of the query. -/
theorem drop_length_takeWhile {α : Type} (p : α → Bool) (l : List α) :
    l.drop (l.takeWhile p).length = l.dropWhile p := by
  induction l with
  | nil => rfl
  | cons a l2 ih =>
    by_cases h : p a = true
    · rw [List.takeWhile_cons_of_pos h, List.dropWhile_cons_of_pos h,
        List.length_cons, List.drop_succ_cons]
      exact ih
    · rw [List.takeWhile_cons_of_neg h, List.dropWhile_cons_of_neg h]
      rfl

/-- Skipping leading spaces is idempotent from the start of the query. -/
theorem skipLeadingSpaces_zero_idem (l : List Char) :
    skipLeadingSpaces l (skipLeadingSpaces l 0) = skipLeadingSpaces l 0 := by
  unfold skipLeadingSpaces
  simp only [List.drop_zero, Nat.zero_add]
  rw [drop_length_takeWhile, takeWhile_dropWhile_nil]
  rfl

/-- A query that fuzzily matches the empty string is effectively blank,
so it matches every string with score 0 and span 0. -/
theorem fuzzyScore_nil_some (U : UnicodeTables) (qRaw qLower : List Char)
    (cs : Bool) (p : Int × Int)
    (h : fuzzyScore U [] qRaw qLower cs = some p) :
    ∀ text : List Char, fuzzyScore U text qRaw qLower cs = some (0, 0) := by
  intro text
  unfold fuzzyScore at h ⊢
  by_cases h0 : qLower.length = 0
  · rw [if_pos h0]
  · rw [if_neg h0] at h ⊢
    dsimp only at h ⊢
    by_cases h1 : (↑(nonSpaceRuneCount qLower) : Int) = 0
    · rw [if_pos h1]
    · rw [if_neg h1] at h ⊢
      by_cases h2 : skipLeadingSpaces qLower 0 = qLower.length
      · rw [if_pos h2]
      · rw [if_neg h2] at h ⊢
        exfalso
        simp only [List.foldl_nil] at h
        rw [if_pos (by rw [skipLeadingSpaces_zero_idem]; exact h2)] at h
        exact Option.noConfusion h

/-- A zero-span fuzzy result is never rejected as loose. -/
theorem reject_span_zero (s q : Int) : rejectLooseFuzzyMatch s 0 q = false := by
  unfold rejectLooseFuzzyMatch
  rw [if_pos]
  simp

/-- `scoreCandidate` written through the named channel projections. -/
theorem scoreCandidate_decomp (U : UnicodeTables) (cand : Candidate) (index : Int)
    (qRaw qLower : List Char) (cs : Bool) :
    scoreCandidate U cand index qRaw qLower cs =
      if !keyChannelOK U cand qRaw qLower cs && !textChannelOK U cand qRaw qLower cs &&
          !pathChannelOK U cand qRaw qLower cs then none
      else
        some { index := index,
               score := composeScore (keyChannelOK U cand qRaw qLower cs)
                 (textChannelOK U cand qRaw qLower cs)
                 (pathChannelOK U cand qRaw qLower cs)
                 (keyChannelScore U cand qRaw qLower cs)
                 (textChannelScore U cand qRaw qLower cs)
                 (pathChannelScore U cand qRaw qLower cs)
                 (candidateSemanticScore U cand),
               openLine := if pathChannelOK U cand qRaw qLower cs &&
                   !textChannelOK U cand qRaw qLower cs &&
                   (!keyChannelOK U cand qRaw qLower cs || keyLooksLikeFilename U cand)
                 then 1 else 0,
               openCol := if pathChannelOK U cand qRaw qLower cs &&
                   !textChannelOK U cand qRaw qLower cs &&
                   (!keyChannelOK U cand qRaw qLower cs || keyLooksLikeFilename U cand)
                 then 1 else 0 } := by
  unfold scoreCandidate keyChannelOK textChannelOK pathChannelOK keyChannelScore
    textChannelScore pathChannelScore
  rfl

/-- A key that looks like the filename folds equal to the
base-without-extension of the candidate file. -/
theorem keyLooksLikeFilename_fold (U : UnicodeTables) (cand : Candidate)
    (h : keyLooksLikeFilename U cand = true) :
    goEqualFold U (fileBaseWithoutExt cand.file) cand.key = true := by
  unfold keyLooksLikeFilename at h
  dsimp only at h
  split at h
  · exact Bool.noConfusion h
  · exact h

/-- C7: the open-at-head override fires exactly for path-only matches. -/
theorem C7_open_at_head (U : UnicodeTables) (cand : Candidate) (index : Int)
    (qRaw qLower : List Char) (cs : Bool) (item : FilteredCandidate)
    (hsome : scoreCandidate U cand index qRaw qLower cs = some item) :
    ((item.openLine = 1 ∧ item.openCol = 1) ↔
      (pathChannelOK U cand qRaw qLower cs = true ∧
       textChannelOK U cand qRaw qLower cs = false ∧
       (keyChannelOK U cand qRaw qLower cs = false ∨
        goEqualFold U (fileBaseWithoutExt cand.file) cand.key = true))) ∧
    ((item.openLine = 1 ∧ item.openCol = 1) ∨
     (item.openLine = 0 ∧ item.openCol = 0)) := by
  rw [scoreCandidate_decomp] at hsome
  split at hsome
  · exact Option.noConfusion hsome
  · rw [Option.some.injEq] at hsome
    subst hsome
    dsimp only
    cases hB : pathChannelOK U cand qRaw qLower cs &&
        !textChannelOK U cand qRaw qLower cs &&
        (!keyChannelOK U cand qRaw qLower cs || keyLooksLikeFilename U cand) with
    | false =>
      rw [if_neg (by simp [hB])]
      constructor
      · constructor
        · intro h1
          exact absurd h1.1 (by decide)
        · intro h2
          exfalso
          obtain ⟨hP, hT, hKL⟩ := h2
          rcases hKL with hK | hL
          · rw [hP, hT, hK] at hB
            simp at hB
          · by_cases hK : keyChannelOK U cand qRaw qLower cs = false
            · rw [hP, hT, hK] at hB
              simp at hB
            · rw [Bool.not_eq_false] at hK
              cases hkey : cand.key with
              | nil =>
                have hks : (fuzzyScore U cand.key qRaw qLower cs).isSome = true := hK
                rw [Option.isSome_iff_exists] at hks
                obtain ⟨q, hq⟩ := hks
                rw [hkey] at hq
                have htext := fuzzyScore_nil_some U qRaw qLower cs q hq cand.text
                have : textChannelOK U cand qRaw qLower cs = true := by
                  unfold textChannelOK
                  rw [htext]
                  simp [reject_span_zero]
                rw [this] at hT
                exact Bool.noConfusion hT
              | cons a l2 =>
                have hkne : cand.key.isEmpty = false := by
                  rw [hkey]; rfl
                by_cases hbase : fileBaseWithoutExt cand.file = []
                · rw [hbase] at hL
                  unfold goEqualFold goToLower at hL
                  simp only [List.map_nil] at hL
                  rw [beq_iff_eq] at hL
                  have : cand.key = [] := List.map_eq_nil_iff.mp hL.symm
                  rw [hkey] at this
                  exact List.noConfusion this
                · have hbne : (fileBaseWithoutExt cand.file).isEmpty = false := by
                    cases hfb : fileBaseWithoutExt cand.file with
                    | nil => exact absurd hfb hbase
                    | cons x xs => rfl
                  have hLL : keyLooksLikeFilename U cand = true := by
                    unfold keyLooksLikeFilename
                    dsimp only
                    rw [hbne, hkne]
                    simpa using hL
                  rw [hP, hT, hLL] at hB
                  simp at hB
      · right
        exact ⟨rfl, rfl⟩
    | true =>
      rw [if_pos (by simp [hB])]
      rw [Bool.and_eq_true, Bool.and_eq_true] at hB
      obtain ⟨⟨hP, hT⟩, hKL⟩ := hB
      constructor
      · constructor
        · intro _
          refine ⟨hP, by simpa using hT, ?_⟩
          rw [Bool.or_eq_true] at hKL
          rcases hKL with hK | hL
          · exact Or.inl (by simpa using hK)
          · exact Or.inr (keyLooksLikeFilename_fold U cand hL)
        · intro _
          exact ⟨rfl, rfl⟩
      · left
        exact ⟨rfl, rfl⟩

/-- A concrete candidate whose path alone matches the query. -/
def pathCand : Candidate :=
  { id := 2, file := "a.go".data, line := 4, col := 1, text := "zz".data,
    key := "zz".data, langID := [], semanticScore := 3 }

/-- Witness for the open-at-head characterization at a concrete
path-only match. -/
theorem C7_witness :
    scoreCandidate asciiTables pathCand 0 "a".data "a".data true =
      some { index := 0, score := 1150, openLine := 1, openCol := 1 } ∧
    (((({ index := 0, score := 1150, openLine := 1, openCol := 1 } :
          FilteredCandidate).openLine = 1 ∧
       ({ index := 0, score := 1150, openLine := 1, openCol := 1 } :
          FilteredCandidate).openCol = 1) ↔
      (pathChannelOK asciiTables pathCand "a".data "a".data true = true ∧
       textChannelOK asciiTables pathCand "a".data "a".data true = false ∧
       (keyChannelOK asciiTables pathCand "a".data "a".data true = false ∨
        goEqualFold asciiTables (fileBaseWithoutExt pathCand.file) pathCand.key = true))) ∧
     ((({ index := 0, score := 1150, openLine := 1, openCol := 1 } :
          FilteredCandidate).openLine = 1 ∧
       ({ index := 0, score := 1150, openLine := 1, openCol := 1 } :
          FilteredCandidate).openCol = 1) ∨
      (({ index := 0, score := 1150, openLine := 1, openCol := 1 } :
          FilteredCandidate).openLine = 0 ∧
       ({ index := 0, score := 1150, openLine := 1, openCol := 1 } :
          FilteredCandidate).openCol = 0))) :=
  ⟨by decide,
    C7_open_at_head asciiTables pathCand 0 "a".data "a".data true
      { index := 0, score := 1150, openLine := 1, openCol := 1 } (by decide)⟩

theorem classify_vis_ne : ∀ (s : List Char) (v : Int), v ≠ 0 →
    (classifyDeclaration s v).2.2 ≠ 0 := by
  intro s v
  induction s, v using classifyDeclaration.induct with
  | case1 s v h0 =>
    intro hv
    unfold classifyDeclaration
    rw [dif_pos h0]
    exact hv
  | case2 s v h0 tt htok =>
    intro hv
    have htt : tt = leadingToken s := rfl
    rw [htt] at htok
    unfold classifyDeclaration
    rw [dif_neg h0]
    dsimp only
    rw [dif_pos htok]
    exact hv
  | case3 s v h0 tt htok hcond ih =>
    intro hv
    have htt : tt = leadingToken s := rfl
    rw [htt] at htok hcond
    unfold classifyDeclaration
    rw [dif_neg h0]
    dsimp only
    rw [dif_neg htok, if_pos hcond]
    apply ih
    split
    · decide
    · exact hv
  | case4 s v h0 tt htok h1 hcond ih =>
    intro hv
    have htt : tt = leadingToken s := rfl
    rw [htt] at htok h1 hcond
    unfold classifyDeclaration
    rw [dif_neg h0]
    dsimp only
    rw [dif_neg htok, if_neg h1, if_pos hcond]
    apply ih
    split
    · decide
    · exact hv
  | case5 s v h0 tt htok h1 h2 hcond ih =>
    intro hv
    have htt : tt = leadingToken s := rfl
    rw [htt] at htok h1 h2 hcond
    unfold classifyDeclaration
    rw [dif_neg h0]
    dsimp only
    rw [dif_neg htok, if_neg h1, if_neg h2, if_pos hcond]
    apply ih
    split
    · decide
    · exact hv
  | case6 s v h0 tt htok h1 h2 h3 hcond ih =>
    intro hv
    have htt : tt = leadingToken s := rfl
    rw [htt] at htok h1 h2 h3 hcond
    unfold classifyDeclaration
    rw [dif_neg h0]
    dsimp only
    rw [dif_neg htok, if_neg h1, if_neg h2, if_neg h3, if_pos hcond]
    exact ih hv
  | case7 s v h0 tt htok h1 h2 h3 h4 =>
    intro hv
    have htt : tt = leadingToken s := rfl
    rw [htt] at htok h1 h2 h3 h4
    unfold classifyDeclaration
    rw [dif_neg h0]
    dsimp only
    rw [dif_neg htok, if_neg h1, if_neg h2, if_neg h3, if_neg h4]
    exact hv

/-- When classification from zero visibility reports no visibility bias,
the visibility argument is passed through untouched and the keyword and
remainder are unchanged. -/
theorem classify_vis_param : ∀ (s : List Char) (v : Int) (kw rest : List Char),
    classifyDeclaration s 0 = (kw, rest, 0) →
    classifyDeclaration s v = (kw, rest, v) := by
  intro s v
  induction s, v using classifyDeclaration.induct with
  | case1 s v h0 =>
    intro kw rest h
    unfold classifyDeclaration at h ⊢
    rw [dif_pos h0] at h ⊢
    rw [Prod.mk.injEq, Prod.mk.injEq] at h
    rw [← h.1, ← h.2.1]
  | case2 s v h0 tt htok =>
    intro kw rest h
    have htt : tt = leadingToken s := rfl
    rw [htt] at htok
    unfold classifyDeclaration at h ⊢
    rw [dif_neg h0] at h ⊢
    dsimp only at h ⊢
    rw [dif_pos htok] at h ⊢
    rw [Prod.mk.injEq, Prod.mk.injEq] at h
    rw [← h.1, ← h.2.1]
  | case3 s v h0 tt htok hcond ih =>
    intro kw rest h
    have htt : tt = leadingToken s := rfl
    rw [htt] at htok hcond
    exfalso
    unfold classifyDeclaration at h
    rw [dif_neg h0] at h
    dsimp only at h
    rw [dif_neg htok, if_pos hcond, if_pos (by decide)] at h
    exact classify_vis_ne _ 35 (by decide) (by rw [h])
  | case4 s v h0 tt htok h1 hcond ih =>
    intro kw rest h
    have htt : tt = leadingToken s := rfl
    rw [htt] at htok h1 hcond
    exfalso
    unfold classifyDeclaration at h
    rw [dif_neg h0] at h
    dsimp only at h
    rw [dif_neg htok, if_neg h1, if_pos hcond, if_pos (by decide)] at h
    exact classify_vis_ne _ 20 (by decide) (by rw [h])
  | case5 s v h0 tt htok h1 h2 hcond ih =>
    intro kw rest h
    have htt : tt = leadingToken s := rfl
    rw [htt] at htok h1 h2 hcond
    exfalso
    unfold classifyDeclaration at h
    rw [dif_neg h0] at h
    dsimp only at h
    rw [dif_neg htok, if_neg h1, if_neg h2, if_pos hcond, if_pos (by decide)] at h
    exact classify_vis_ne _ (-15) (by decide) (by rw [h])
  | case6 s v h0 tt htok h1 h2 h3 hcond ih =>
    intro kw rest h
    have htt : tt = leadingToken s := rfl
    rw [htt] at htok h1 h2 h3 hcond
    unfold classifyDeclaration at h ⊢
    rw [dif_neg h0] at h ⊢
    dsimp only at h ⊢
    rw [dif_neg htok, if_neg h1, if_neg h2, if_neg h3, if_pos hcond] at h ⊢
    exact ih kw rest h
  | case7 s v h0 tt htok h1 h2 h3 h4 =>
    intro kw rest h
    have htt : tt = leadingToken s := rfl
    rw [htt] at htok h1 h2 h3 h4
    unfold classifyDeclaration at h ⊢
    rw [dif_neg h0] at h ⊢
    dsimp only at h ⊢
    rw [dif_neg htok, if_neg h1, if_neg h2, if_neg h3, if_neg h4] at h ⊢
    rw [Prod.mk.injEq, Prod.mk.injEq] at h
    rw [← h.1, ← h.2.1]

/-- One classifier step across a leading `public ` modifier. -/
theorem classify_public_step (low : List Char)
    (hlowtrim : low.dropWhile isSpaceTab = low) (v : Int) :
    classifyDeclaration ("public ".data ++ low) v =
      classifyDeclaration low (if v < 35 then 35 else v) := by
  have hshape : "public ".data ++ low = 'p' :: 'u' :: 'b' :: 'l' :: 'i' :: 'c' :: ' ' :: low := rfl
  have hlt : leadingToken ('p' :: 'u' :: 'b' :: 'l' :: 'i' :: 'c' :: ' ' :: low) =
      ("public".data, ' '::low) := rfl
  have htm : trimModifierTail "public".data (' '::low) = low := by
    unfold trimModifierTail
    dsimp only
    rw [List.dropWhile_cons_of_pos (by decide), hlowtrim]
    rw [if_neg (by simp)]
    exact hlowtrim
  rw [hshape]
  conv_lhs => rw [classifyDeclaration]
  rw [dif_neg (by simp)]
  dsimp only
  rw [hlt]
  dsimp only
  rw [dif_neg (by decide), if_pos (by decide)]
  rw [htm]

/-- One classifier step across a leading `private ` modifier. -/
theorem classify_private_step (low : List Char)
    (hlowtrim : low.dropWhile isSpaceTab = low) (v : Int) :
    classifyDeclaration ("private ".data ++ low) v =
      classifyDeclaration low (if (v == 0) = true then -15 else v) := by
  have hshape : "private ".data ++ low = 'p' :: 'r' :: 'i' :: 'v' :: 'a' :: 't' :: 'e' :: ' ' :: low := rfl
  have hlt : leadingToken ('p' :: 'r' :: 'i' :: 'v' :: 'a' :: 't' :: 'e' :: ' ' :: low) =
      ("private".data, ' '::low) := rfl
  have htm : trimModifierTail "private".data (' '::low) = low := by
    unfold trimModifierTail
    dsimp only
    rw [List.dropWhile_cons_of_pos (by decide), hlowtrim]
    rw [if_neg (by simp)]
    exact hlowtrim
  rw [hshape]
  conv_lhs => rw [classifyDeclaration]
  rw [dif_neg (by simp)]
  dsimp only
  rw [hlt]
  dsimp only
  rw [dif_neg (by decide), if_neg (by decide), if_neg (by decide), if_pos (by decide)]
  rw [htm]

/-- The function-like score is one of 300, 340, 410. -/
theorem semanticFunctionLikeScore_range (kw rest : List Char) :
    300 ≤ semanticFunctionLikeScore kw rest ∧
    semanticFunctionLikeScore kw rest ≤ 410 := by
  unfold semanticFunctionLikeScore
  dsimp only
  split_ifs <;> norm_num

/-- The keyword base score is zero or between 80 and 460. -/
theorem semanticScoreForDeclaration_range (kw rest : List Char) :
    semanticScoreForDeclaration kw rest = 0 ∨
    (80 ≤ semanticScoreForDeclaration kw rest ∧
     semanticScoreForDeclaration kw rest ≤ 460) := by
  unfold semanticScoreForDeclaration
  split_ifs <;> (have hfr := semanticFunctionLikeScore_range kw rest; omega)

/-- The empty keyword carries no base score. -/
theorem semanticScoreForDeclaration_nil (rest : List Char) :
    semanticScoreForDeclaration [] rest = 0 := rfl

/-- C9: within a fixed keyword class, a `public` modifier scores
strictly above the unmodified declaration, which scores strictly above
a `private` one (biases `+35` and `-15` around the keyword base). -/
theorem C9_semantic_visibility_monotone (U : UnicodeTables)
    (pubLine defLine privLine low kw rest : List Char)
    (hlowtrim : low.dropWhile isSpaceTab = low)
    (h1 : classifyDeclaration low 0 = (kw, rest, 0))
    (h2 : semanticScoreForDeclaration kw rest ≠ 0)
    (hpub : goToLower U (TrimRunes pubLine) = "public ".data ++ low)
    (hdef : goToLower U (TrimRunes defLine) = low)
    (hpriv : goToLower U (TrimRunes privLine) = "private ".data ++ low) :
    computeSemanticScore U defLine < computeSemanticScore U pubLine ∧
    computeSemanticScore U privLine < computeSemanticScore U defLine := by
  have hkw : kw ≠ [] := by
    intro hk
    rw [hk] at h2
    exact h2 (semanticScoreForDeclaration_nil rest)
  have hkwe : kw.isEmpty = false := by
    cases hkc : kw with
    | nil => exact absurd hkc hkw
    | cons a l => rfl
  have hlowne : low.isEmpty = false := by
    cases hl : low with
    | nil =>
      rw [hl] at h1
      have hnil : classifyDeclaration [] 0 = ([], [], 0) := by
        conv_lhs => rw [classifyDeclaration]
        rfl
      rw [hnil] at h1
      rw [Prod.mk.injEq] at h1
      exact absurd h1.1.symm hkw
    | cons a l => rfl
  have hrange := semanticScoreForDeclaration_range kw rest
  rcases hrange with h0 | hr
  · exact absurd h0 h2
  have hb2 : (semanticScoreForDeclaration kw rest == 0) = false := by
    rw [beq_eq_false_iff_ne]
    exact h2
  have hdefScore : computeSemanticScore U defLine =
      semanticScoreForDeclaration kw rest := by
    unfold computeSemanticScore
    dsimp only
    rw [hdef, if_neg (by rw [hlowne]; exact Bool.false_ne_true), h1]
    dsimp only
    rw [if_neg (by rw [hkwe]; exact Bool.false_ne_true)]
    rw [if_neg (by rw [hb2]; exact Bool.false_ne_true)]
    have : semanticScoreForDeclaration kw rest + 0 =
        semanticScoreForDeclaration kw rest := by ring
    rw [this]
    exact wrap16_eq_self (by omega) (by omega)
  have hpubScore : computeSemanticScore U pubLine =
      semanticScoreForDeclaration kw rest + 35 := by
    unfold computeSemanticScore
    dsimp only
    rw [hpub]
    rw [if_neg (by simp)]
    rw [classify_public_step low hlowtrim 0]
    rw [show (if (0 : Int) < 35 then (35 : Int) else 0) = 35 from by decide]
    rw [classify_vis_param low 35 kw rest h1]
    dsimp only
    rw [if_neg (by rw [hkwe]; exact Bool.false_ne_true)]
    rw [if_neg (by rw [hb2]; exact Bool.false_ne_true)]
    exact wrap16_eq_self (by omega) (by omega)
  have hprivScore : computeSemanticScore U privLine =
      semanticScoreForDeclaration kw rest - 15 := by
    unfold computeSemanticScore
    dsimp only
    rw [hpriv]
    rw [if_neg (by simp)]
    rw [classify_private_step low hlowtrim 0]
    rw [show (if ((0 : Int) == 0) = true then (-15 : Int) else 0) = -15 from by decide]
    rw [classify_vis_param low (-15) kw rest h1]
    dsimp only
    rw [if_neg (by rw [hkwe]; exact Bool.false_ne_true)]
    rw [if_neg (by rw [hb2]; exact Bool.false_ne_true)]
    have : semanticScoreForDeclaration kw rest + -15 =
        semanticScoreForDeclaration kw rest - 15 := by ring
    rw [this]
    exact wrap16_eq_self (by omega) (by omega)
  rw [hdefScore, hpubScore, hprivScore]
  omega

/-- Witness for the semantic visibility monotonicity at a concrete
class declaration. -/
theorem C9_witness :
    computeSemanticScore asciiTables "class foo".data <
      computeSemanticScore asciiTables "public class foo".data ∧
    computeSemanticScore asciiTables "private class foo".data <
      computeSemanticScore asciiTables "class foo".data :=
  C9_semantic_visibility_monotone asciiTables "public class foo".data
    "class foo".data "private class foo".data "class foo".data
    "class".data "foo".data
    (by decide)
    (by conv_lhs => rw [classifyDeclaration]
        decide)
    (by decide) (by decide) (by decide) (by decide)

theorem strLt_irrefl : ∀ a : List Char, strLt a a = false := by
  intro a
  induction a with
  | nil => rfl
  | cons c l ih =>
    unfold strLt
    rw [if_neg (lt_irrefl c), if_neg (lt_irrefl c)]
    exact ih

theorem strLt_asymm : ∀ a b : List Char, strLt a b = true → strLt b a = false := by
  intro a
  induction a with
  | nil =>
    intro b h
    cases b with
    | nil => rfl
    | cons c l => rfl
  | cons c l ih =>
    intro b h
    cases b with
    | nil => exact absurd h (by rw [strLt]; exact Bool.noConfusion)
    | cons d m =>
      unfold strLt at h ⊢
      by_cases h1 : c < d
      · rw [if_neg (lt_asymm h1), if_pos h1]
      · rw [if_neg h1] at h
        by_cases h2 : d < c
        · rw [if_pos h2] at h
          exact Bool.noConfusion h
        · rw [if_neg h2] at h
          rw [if_neg h2, if_neg h1]
          exact ih m h

theorem strLt_trans : ∀ a b c : List Char,
    strLt a b = true → strLt b c = true → strLt a c = true := by
  intro a
  induction a with
  | nil =>
    intro b c hab hbc
    cases c with
    | nil =>
      cases b with
      | nil => exact hab
      | cons d m => exact absurd hbc (by rw [strLt]; exact Bool.noConfusion)
    | cons e p => rfl
  | cons x l ih =>
    intro b c hab hbc
    cases b with
    | nil => exact absurd hab (by rw [strLt]; exact Bool.noConfusion)
    | cons y m =>
      cases c with
      | nil => exact absurd hbc (by rw [strLt]; exact Bool.noConfusion)
      | cons z p =>
        unfold strLt at hab hbc ⊢
        by_cases h1 : x < y
        · by_cases h2 : y < z
          · rw [if_pos (lt_trans h1 h2)]
          · rw [if_neg h2] at hbc
            by_cases h3 : z < y
            · rw [if_pos h3] at hbc
              exact Bool.noConfusion hbc
            · have hyz : y = z := le_antisymm (not_lt.mp h3) (not_lt.mp h2)
              rw [if_pos (hyz ▸ h1)]
        · rw [if_neg h1] at hab
          by_cases h4 : y < x
          · rw [if_pos h4] at hab
            exact Bool.noConfusion hab
          · rw [if_neg h4] at hab
            have hxy : x = y := le_antisymm (not_lt.mp h4) (not_lt.mp h1)
            subst hxy
            by_cases h2 : x < z
            · rw [if_pos h2]
            · rw [if_neg h2] at hbc ⊢
              by_cases h3 : z < x
              · rw [if_pos h3] at hbc
                exact Bool.noConfusion hbc
              · rw [if_neg h3] at hbc ⊢
                exact ih m p hab hbc

theorem strLt_connex : ∀ a b : List Char,
    strLt a b = false → strLt b a = false → a = b := by
  intro a
  induction a with
  | nil =>
    intro b hab hba
    cases b with
    | nil => rfl
    | cons d m => exact absurd hab (by rw [strLt]; simp)
  | cons x l ih =>
    intro b hab hba
    cases b with
    | nil => exact absurd hba (by rw [strLt]; simp)
    | cons y m =>
      unfold strLt at hab hba
      by_cases h1 : x < y
      · rw [if_pos h1] at hab
        exact Bool.noConfusion hab
      · rw [if_neg h1] at hab
        by_cases h2 : y < x
        · rw [if_pos h2] at hba
          exact Bool.noConfusion hba
        · rw [if_neg h2] at hab
          rw [if_neg h2, if_neg h1] at hba
          have hxy : x = y := le_antisymm (not_lt.mp h2) (not_lt.mp h1)
          rw [hxy, ih m hab hba]

/-- Characterization of the comparator as a lexicographic strict order
on (score descending, key ascending, id ascending). -/
theorem cmp_iff (cands : List Candidate) (a b : FilteredCandidate) :
    lessFilteredCandidate cands a b = true ↔
      (b.score < a.score ∨
       (a.score = b.score ∧
        (strLt (getCandidate cands a.index).key (getCandidate cands b.index).key = true ∨
         ((getCandidate cands a.index).key = (getCandidate cands b.index).key ∧
          (getCandidate cands a.index).id < (getCandidate cands b.index).id)))) := by
  unfold lessFilteredCandidate
  dsimp only
  split_ifs with h1 h2
  · simp only [decide_eq_true_eq]
    constructor
    · intro h
      exact Or.inl h
    · rintro (h | ⟨h, _⟩)
      · exact h
      · exact absurd h h1
  · push_neg at h1
    constructor
    · intro h
      exact Or.inr ⟨h1, Or.inl h⟩
    · rintro (h | ⟨_, hk | ⟨hk, _⟩⟩)
      · omega
      · exact hk
      · exact absurd hk h2
  · push_neg at h1 h2
    simp only [decide_eq_true_eq]
    constructor
    · intro h
      exact Or.inr ⟨h1, Or.inr ⟨h2, h⟩⟩
    · rintro (h | ⟨_, hk | ⟨_, hid⟩⟩)
      · omega
      · rw [h2, strLt_irrefl] at hk
        exact Bool.noConfusion hk
      · exact hid

/-- Characterization of a failed comparison. -/
theorem cmp_false_iff (cands : List Candidate) (a b : FilteredCandidate) :
    lessFilteredCandidate cands a b = false ↔
      (a.score < b.score ∨
       (a.score = b.score ∧
        (strLt (getCandidate cands b.index).key (getCandidate cands a.index).key = true ∨
         ((getCandidate cands a.index).key = (getCandidate cands b.index).key ∧
          (getCandidate cands b.index).id ≤ (getCandidate cands a.index).id)))) := by
  rw [← Bool.not_eq_true, cmp_iff]
  constructor
  · intro h
    push_neg at h
    obtain ⟨hs, hrest⟩ := h
    rcases lt_trichotomy a.score b.score with hlt | heq | hgt
    · exact Or.inl hlt
    · refine Or.inr ⟨heq, ?_⟩
      obtain ⟨hk, hid⟩ := hrest heq
      by_cases hkeq : (getCandidate cands a.index).key = (getCandidate cands b.index).key
      · exact Or.inr ⟨hkeq, hid hkeq⟩
      · left
        rcases Bool.eq_false_or_eq_true
            (strLt (getCandidate cands b.index).key (getCandidate cands a.index).key) with
          hba | hba
        · exact hba
        · have := strLt_connex _ _ (Bool.eq_false_iff.mpr hk) hba
          exact absurd this hkeq
    · omega
  · intro h
    rintro (hgt | ⟨heq, hk | ⟨hkeq, hid⟩⟩)
    · rcases h with h1 | ⟨h1, _⟩
      · omega
      · omega
    · rcases h with h1 | ⟨h1, hk2 | ⟨hk2, _⟩⟩
      · omega
      · rw [strLt_asymm _ _ hk2] at hk
        exact Bool.noConfusion hk
      · rw [hk2, strLt_irrefl] at hk
        exact Bool.noConfusion hk
    · rcases h with h1 | ⟨h1, hk2 | ⟨hk2, hid2⟩⟩
      · omega
      · rw [hkeq, strLt_irrefl] at hk2
        exact Bool.noConfusion hk2
      · omega

/-- The comparator relation used by the sorter is total. -/
theorem fcLe_total (cands : List Candidate) (a b : FilteredCandidate) :
    lessFilteredCandidate cands b a = false ∨
    lessFilteredCandidate cands a b = false := by
  rw [cmp_false_iff, cmp_false_iff]
  by_cases hs : a.score = b.score
  · by_cases hk : (getCandidate cands a.index).key = (getCandidate cands b.index).key
    · by_cases hid : (getCandidate cands a.index).id ≤ (getCandidate cands b.index).id
      · left
        exact Or.inr ⟨hs.symm, Or.inr ⟨hk.symm, hid⟩⟩
      · right
        exact Or.inr ⟨hs, Or.inr ⟨hk, by omega⟩⟩
    · rcases Bool.eq_false_or_eq_true
          (strLt (getCandidate cands a.index).key (getCandidate cands b.index).key) with
        hab | hab
      · left
        exact Or.inr ⟨hs.symm, Or.inl hab⟩
      · rcases Bool.eq_false_or_eq_true
            (strLt (getCandidate cands b.index).key (getCandidate cands a.index).key) with
          hba | hba
        · right
          exact Or.inr ⟨hs, Or.inl hba⟩
        · exact absurd (strLt_connex _ _ hab hba) hk
  · rcases lt_trichotomy a.score b.score with h | h | h
    · right
      exact Or.inl h
    · exact absurd h hs
    · left
      exact Or.inl h

/-- The comparator relation used by the sorter is transitive. -/
theorem fcLe_trans (cands : List Candidate) (a b c : FilteredCandidate)
    (hab : lessFilteredCandidate cands b a = false)
    (hbc : lessFilteredCandidate cands c b = false) :
    lessFilteredCandidate cands c a = false := by
  rw [cmp_false_iff] at hab hbc ⊢
  rcases hab with h1 | ⟨h1, hk1⟩
  · rcases hbc with h2 | ⟨h2, _⟩
    · exact Or.inl (by omega)
    · exact Or.inl (by omega)
  · rcases hbc with h2 | ⟨h2, hk2⟩
    · exact Or.inl (by omega)
    · refine Or.inr ⟨by omega, ?_⟩
      rcases hk1 with hs1 | ⟨hs1, hid1⟩
      · rcases hk2 with hs2 | ⟨hs2, hid2⟩
        · exact Or.inl (strLt_trans _ _ _ hs1 hs2)
        · rw [← hs2] at hs1
          exact Or.inl hs1
      · rcases hk2 with hs2 | ⟨hs2, hid2⟩
        · rw [hs1] at hs2
          exact Or.inl hs2
        · exact Or.inr ⟨by rw [hs2, hs1], by omega⟩

/-- Elements unordered in both directions agree on score, key and id. -/
theorem cmp_both_false (cands : List Candidate) (a b : FilteredCandidate)
    (hab : lessFilteredCandidate cands a b = false)
    (hba : lessFilteredCandidate cands b a = false) :
    a.score = b.score ∧
    (getCandidate cands a.index).key = (getCandidate cands b.index).key ∧
    (getCandidate cands a.index).id = (getCandidate cands b.index).id := by
  rw [cmp_false_iff] at hab hba
  rcases hab with h1 | ⟨h1, hk1⟩
  · rcases hba with h2 | ⟨h2, _⟩
    · omega
    · omega
  · rcases hba with h2 | ⟨h2, hk2⟩
    · omega
    · refine ⟨h1, ?_⟩
      rcases hk1 with hs1 | ⟨hs1, hid1⟩
      · rcases hk2 with hs2 | ⟨hs2, hid2⟩
        · rw [strLt_asymm _ _ hs2] at hs1
          exact absurd hs1 Bool.noConfusion
        · rw [hs2] at hs1
          rw [strLt_irrefl] at hs1
          exact absurd hs1 Bool.noConfusion
      · rcases hk2 with hs2 | ⟨hs2, hid2⟩
        · rw [hs1] at hs2
          rw [strLt_irrefl] at hs2
          exact absurd hs2 Bool.noConfusion
        · exact ⟨hs1, by omega⟩

/-- Two sorted permutations of each other are equal when the order is
antisymmetric on the elements involved. -/
theorem sorted_perm_eq_local {α : Type} {le : α → α → Prop} :
    ∀ (l1 l2 : List α), l1.Perm l2 → l1.Sorted le → l2.Sorted le →
      (∀ a b, a ∈ l1 → b ∈ l1 → le a b → le b a → a = b) → l1 = l2 := by
  intro l1
  induction l1 with
  | nil =>
    intro l2 hp _ _ _
    exact (hp.nil_eq).symm ▸ rfl
  | cons a t1 ih =>
    intro l2 hp hs1 hs2 hanti
    cases l2 with
    | nil => exact absurd hp.symm.nil_eq (by simp)
    | cons b t2 =>
      rw [List.sorted_cons] at hs1 hs2
      have hab : a = b := by
        have hamem : a ∈ b :: t2 := hp.mem_iff.mp (by simp)
        have hbmem : b ∈ a :: t1 := hp.mem_iff.mpr (by simp)
        rcases List.mem_cons.mp hamem with h | h
        · exact h
        · rcases List.mem_cons.mp hbmem with h2 | h2
          · exact h2.symm
          · exact hanti a b (by simp) (by simp [h2]) (hs1.1 b h2) (hs2.1 a h)
      subst hab
      have hp2 : t1.Perm t2 := hp.cons_inv
      rw [ih t2 hp2 hs1.2 hs2.2
        (fun x y hx hy hxy hyx => hanti x y (by simp [hx]) (by simp [hy]) hxy hyx)]

/-- The merge loop produces a permutation of its two inputs. -/
theorem mergeLoop_perm (cands : List Candidate) :
    ∀ (l r : List FilteredCandidate), (mergeLoop cands l r).Perm (l ++ r) := by
  intro l r
  induction l, r using mergeLoop.induct cands with
  | case1 r =>
    rw [mergeLoop]
    simp
  | case2 l h =>
    rw [mergeLoop]
    · simp
    · exact h
  | case3 a as b bs hlt ih =>
    rw [mergeLoop]
    rw [if_pos hlt]
    exact (ih.cons a)
  | case4 a as b bs hlt ih =>
    rw [mergeLoop]
    rw [if_neg hlt]
    exact (ih.cons b).trans List.perm_middle.symm

/-- The merge loop of two lists sorted by the comparator is sorted. -/
theorem mergeLoop_sorted (cands : List Candidate) :
    ∀ (l r : List FilteredCandidate),
      l.Sorted (fun a b => lessFilteredCandidate cands b a = false) →
      r.Sorted (fun a b => lessFilteredCandidate cands b a = false) →
      (mergeLoop cands l r).Sorted
        (fun a b => lessFilteredCandidate cands b a = false) := by
  intro l r
  induction l, r using mergeLoop.induct cands with
  | case1 r =>
    intro _ hr
    rw [mergeLoop]
    exact hr
  | case2 l h =>
    intro hl _
    rw [mergeLoop]
    · exact hl
    · exact h
  | case3 a as b bs hlt ih =>
    intro hl hr
    rw [List.sorted_cons] at hl
    rw [mergeLoop, if_pos hlt, List.sorted_cons]
    have hba : lessFilteredCandidate cands b a = false := by
      rcases fcLe_total cands a b with h | h
      · exact h
      · rw [h] at hlt
        exact Bool.noConfusion hlt
    refine ⟨?_, ih hl.2 hr⟩
    intro x hx
    have hx2 : x ∈ as ++ (b :: bs) := (mergeLoop_perm cands as (b :: bs)).mem_iff.mp hx
    rcases List.mem_append.mp hx2 with hxa | hxb
    · exact hl.1 x hxa
    · rcases List.mem_cons.mp hxb with hxeq | hxbs
      · rw [hxeq]
        exact hba
      · rw [List.sorted_cons] at hr
        exact fcLe_trans cands a b x hba (hr.1 x hxbs)
  | case4 a as b bs hlt ih =>
    intro hl hr
    rw [List.sorted_cons] at hr
    rw [mergeLoop, if_neg hlt, List.sorted_cons]
    refine ⟨?_, ih hl hr.2⟩
    intro x hx
    have hx2 : x ∈ (a :: as) ++ bs := (mergeLoop_perm cands (a :: as) bs).mem_iff.mp hx
    have hlt2 : lessFilteredCandidate cands a b = false := Bool.eq_false_iff.mpr hlt
    rcases List.mem_append.mp hx2 with hxa | hxb
    · rcases List.mem_cons.mp hxa with hxeq | hxas
      · rw [hxeq]
        exact hlt2
      · rw [List.sorted_cons] at hl
        exact fcLe_trans cands b a x hlt2 (hl.1 x hxas)
    · exact hr.1 x hxb

/-- `MergeFilteredCandidates` is the merge loop on every input (the
empty-list early returns agree with the loop). -/
theorem merge_eq_mergeLoop (cands : List Candidate)
    (l r : List FilteredCandidate) :
    MergeFilteredCandidates cands l r = mergeLoop cands l r := by
  unfold MergeFilteredCandidates
  cases l with
  | nil =>
    rw [mergeLoop]
    simp
  | cons a as =>
    rw [if_neg (by simp)]
    cases r with
    | nil =>
      rw [mergeLoop] <;> simp
    | cons b bs =>
      rw [if_neg (by simp)]

/-- The index recorded by a successful scoring is the passed index. -/
theorem scoreCandidate_some_index (U : UnicodeTables) (cand : Candidate)
    (idx : Int) (qRaw qLower : List Char) (cs : Bool) (item : FilteredCandidate)
    (h : scoreCandidate U cand idx qRaw qLower cs = some item) :
    item.index = idx := by
  rw [scoreCandidate_decomp] at h
  split at h
  · exact Option.noConfusion h
  · rw [Option.some.injEq] at h
    rw [← h]

/-- The sorter emits a permutation of its input. -/
theorem sortFiltered_perm (cands : List Candidate) (out : List FilteredCandidate) :
    (sortFilteredCandidates cands out).Perm out :=
  List.perm_insertionSort _ _

/-- The sorter emits a list sorted by the comparator. -/
theorem sortFiltered_sorted (cands : List Candidate) (out : List FilteredCandidate) :
    (sortFilteredCandidates cands out).Sorted
      (fun a b => lessFilteredCandidate cands b a = false) := by
  haveI : IsTotal FilteredCandidate
      (fun a b => lessFilteredCandidate cands b a = false) := ⟨fcLe_total cands⟩
  haveI : IsTrans FilteredCandidate
      (fun a b => lessFilteredCandidate cands b a = false) :=
    ⟨fun a b c => fcLe_trans cands a b c⟩
  exact List.sorted_insertionSort _ _

/-- Membership in a scored index range. -/
theorem scored_mem (U : UnicodeTables) (cands : List Candidate)
    (qRaw qLower : List Char) (cs : Bool) (s n : Nat) (a : FilteredCandidate)
    (ha : a ∈ (List.range' s n).filterMap
      (fun i : Nat =>
        scoreCandidate U (getCandidate cands (i : Int)) (wrap32 (i : Int)) qRaw qLower cs)) :
    ∃ i : Nat, s ≤ i ∧ i < s + n ∧
      scoreCandidate U (getCandidate cands (i : Int)) (wrap32 (i : Int)) qRaw qLower cs
        = some a := by
  rw [List.mem_filterMap] at ha
  obtain ⟨i, hi, hsc⟩ := ha
  rw [List.mem_range'_1] at hi
  exact ⟨i, hi.1, hi.2, hsc⟩

/-- Indexing a candidate by a natural position. -/
theorem getCandidate_natCast (cands : List Candidate) (i : Nat)
    (hi : i < cands.length) :
    getCandidate cands ((i : Nat) : Int) = cands[i] := by
  unfold getCandidate
  rw [Int.toNat_natCast]
  exact List.getD_eq_getElem cands default hi

/-- Two scored entries that compare unordered in both directions are the
same entry, provided candidate ids are unique and the candidate count is
below `2^31`. -/
theorem scored_antisymm (U : UnicodeTables) (cands : List Candidate)
    (qRaw qLower : List Char) (cs : Bool)
    (hn : cands.length < 2147483648)
    (hids : (cands.map Candidate.id).Nodup)
    (a b : FilteredCandidate) (i j : Nat)
    (hi : i < cands.length) (hj : j < cands.length)
    (ha : scoreCandidate U (getCandidate cands (i : Int)) (wrap32 (i : Int))
      qRaw qLower cs = some a)
    (hb : scoreCandidate U (getCandidate cands (j : Int)) (wrap32 (j : Int))
      qRaw qLower cs = some b)
    (hab : lessFilteredCandidate cands a b = false)
    (hba : lessFilteredCandidate cands b a = false) : a = b := by
  obtain ⟨hs, hk, hid⟩ := cmp_both_false cands a b hab hba
  have hwi : wrap32 ((i : Nat) : Int) = ((i : Nat) : Int) :=
    wrap32_eq_self (by omega) (by omega)
  have hwj : wrap32 ((j : Nat) : Int) = ((j : Nat) : Int) :=
    wrap32_eq_self (by omega) (by omega)
  have hai : a.index = ((i : Nat) : Int) := by
    have := scoreCandidate_some_index U (getCandidate cands (i : Int)) (wrap32 (i : Int))
      qRaw qLower cs a ha
    rw [this, hwi]
  have hbi : b.index = ((j : Nat) : Int) := by
    have := scoreCandidate_some_index U (getCandidate cands (j : Int)) (wrap32 (j : Int))
      qRaw qLower cs b hb
    rw [this, hwj]
  rw [hai, hbi, getCandidate_natCast cands i hi, getCandidate_natCast cands j hj] at hid
  have hij : i = j := by
    have hi2 : i < (cands.map Candidate.id).length := by simpa using hi
    have hj2 : j < (cands.map Candidate.id).length := by simpa using hj
    refine (@List.Nodup.getElem_inj_iff _ (cands.map Candidate.id) hids i hi2 j hj2).mp ?_
    rw [List.getElem_map, List.getElem_map]
    exact hid
  subst hij
  rw [ha] at hb
  exact Option.some_inj.mp hb

/-- The pre-sort scored list of the none-subset loop. -/
theorem appendScoredRange_none (U : UnicodeTables) (cands : List Candidate)
    (s e : Nat) (qR qL : List Char) (cs : Bool) :
    appendScoredRange U [] cands none s e qR qL cs =
      (List.range' s (e - s)).filterMap
        (fun i : Nat =>
          scoreCandidate U (getCandidate cands (i : Int)) (wrap32 (i : Int)) qR qL cs) := by
  rfl

/-- A clamp-free range filter is the sorted scored range. -/
theorem range_filter_eq (U : UnicodeTables) (cands : List Candidate)
    (s e : Nat) (hse : s ≤ e) (he : e ≤ cands.length) (qR qL : List Char) :
    FilterCandidatesRangeWithQueryRunes U cands (s : Int) (e : Int) qR qL =
      sortFilteredCandidates cands
        ((List.range' s (e - s)).filterMap
          (fun i : Nat =>
            scoreCandidate U (getCandidate cands (i : Int)) (wrap32 (i : Int)) qR qL
              (qR.length == qL.length))) := by
  unfold FilterCandidatesRangeWithQueryRunes
  dsimp only
  have h1 : (if (s : Int) < 0 then (0 : Int) else (s : Int)) = (s : Int) :=
    if_neg (by omega)
  have h2 : (if (e : Int) > (cands.length : Int) then (cands.length : Int)
      else (e : Int)) = (e : Int) := if_neg (by omega)
  rw [h1, h2]
  by_cases hs : s = e
  · subst hs
    rw [if_pos (by omega), Nat.sub_self]
    rfl
  · rw [if_neg (by omega)]
    rw [show ((s : Int)).toNat = s from Int.toNat_natCast s,
      show ((e : Int)).toNat = e from Int.toNat_natCast e]
    rw [appendScoredRange_none]

/-- The full filter with a non-blank query is the sorted scored range
over all candidate indices. -/
theorem core_filter_eq (U : UnicodeTables) (cands : List Candidate)
    (qR qL : List Char) (hq : qL.length ≠ 0) :
    FilterCandidatesWithQueryRunes U cands qR qL =
      sortFilteredCandidates cands
        ((List.range' 0 cands.length).filterMap
          (fun i : Nat =>
            scoreCandidate U (getCandidate cands (i : Int)) (wrap32 (i : Int)) qR qL
              (qR.length == qL.length))) := by
  unfold FilterCandidatesWithQueryRunes filterCandidatesCore
  rw [if_neg hq, if_neg (by simp)]
  dsimp only
  rw [appendScoredRange_none]
  rw [Nat.sub_zero]

/-- C3 (amended): for a non-blank query, distinct candidate ids and a
candidate count below `2^31`, merging the two independently filtered
halves of any split `0 ≤ m ≤ n` reproduces the full filter. -/
theorem C3_range_merge_equivalence (U : UnicodeTables) (cands : List Candidate)
    (query : List Char) (m : Nat) (hm : m ≤ cands.length)
    (hq : TrimRunes query ≠ [])
    (hn : cands.length < 2147483648)
    (hids : (cands.map Candidate.id).Nodup) :
    MergeFilteredCandidates cands
      (FilterCandidatesRangeWithQueryRunes U cands 0 (m : Int)
        (TrimRunes query) (LowerRunes U (TrimRunes query)))
      (FilterCandidatesRangeWithQueryRunes U cands (m : Int) (cands.length : Int)
        (TrimRunes query) (LowerRunes U (TrimRunes query)))
      = FilterCandidates U cands query := by
  have hqlen : (LowerRunes U (TrimRunes query)).length ≠ 0 := by
    intro h
    rw [LowerRunes, List.length_map] at h
    exact hq (List.length_eq_zero.mp h)
  rw [show (0 : Int) = ((0 : Nat) : Int) from rfl]
  rw [range_filter_eq U cands 0 m (by omega) hm (TrimRunes query)
    (LowerRunes U (TrimRunes query))]
  rw [range_filter_eq U cands m cands.length hm (le_refl _) (TrimRunes query)
    (LowerRunes U (TrimRunes query))]
  have hrhs : FilterCandidates U cands query =
      sortFilteredCandidates cands ((List.range' 0 cands.length).filterMap
        (fun i : Nat => scoreCandidate U (getCandidate cands (i : Int)) (wrap32 (i : Int))
          (TrimRunes query) (LowerRunes U (TrimRunes query))
          ((TrimRunes query).length == (LowerRunes U (TrimRunes query)).length))) := by
    unfold FilterCandidates
    dsimp only
    exact core_filter_eq U cands _ _ hqlen
  rw [hrhs, merge_eq_mergeLoop, Nat.sub_zero]
  have hsplit : (List.range' 0 cands.length).filterMap
        (fun i : Nat => scoreCandidate U (getCandidate cands (i : Int)) (wrap32 (i : Int))
          (TrimRunes query) (LowerRunes U (TrimRunes query))
          ((TrimRunes query).length == (LowerRunes U (TrimRunes query)).length)) =
      (List.range' 0 m).filterMap
        (fun i : Nat => scoreCandidate U (getCandidate cands (i : Int)) (wrap32 (i : Int))
          (TrimRunes query) (LowerRunes U (TrimRunes query))
          ((TrimRunes query).length == (LowerRunes U (TrimRunes query)).length)) ++
      (List.range' m (cands.length - m)).filterMap
        (fun i : Nat => scoreCandidate U (getCandidate cands (i : Int)) (wrap32 (i : Int))
          (TrimRunes query) (LowerRunes U (TrimRunes query))
          ((TrimRunes query).length == (LowerRunes U (TrimRunes query)).length)) := by
    rw [← List.filterMap_append]
    congr 1
    have hap := List.range'_append 0 m (cands.length - m) 1
    rw [Nat.one_mul, Nat.zero_add] at hap
    rw [Nat.sub_add_cancel hm] at hap
    exact hap.symm
  have hperm1 : (mergeLoop cands
      (sortFilteredCandidates cands ((List.range' 0 m).filterMap
        (fun i : Nat => scoreCandidate U (getCandidate cands (i : Int)) (wrap32 (i : Int))
          (TrimRunes query) (LowerRunes U (TrimRunes query))
          ((TrimRunes query).length == (LowerRunes U (TrimRunes query)).length))))
      (sortFilteredCandidates cands ((List.range' m (cands.length - m)).filterMap
        (fun i : Nat => scoreCandidate U (getCandidate cands (i : Int)) (wrap32 (i : Int))
          (TrimRunes query) (LowerRunes U (TrimRunes query))
          ((TrimRunes query).length == (LowerRunes U (TrimRunes query)).length))))).Perm
      ((List.range' 0 cands.length).filterMap
        (fun i : Nat => scoreCandidate U (getCandidate cands (i : Int)) (wrap32 (i : Int))
          (TrimRunes query) (LowerRunes U (TrimRunes query))
          ((TrimRunes query).length == (LowerRunes U (TrimRunes query)).length))) := by
    refine (mergeLoop_perm cands _ _).trans ?_
    rw [hsplit]
    exact (sortFiltered_perm cands _).append (sortFiltered_perm cands _)
  have hperm2 : ((mergeLoop cands
      (sortFilteredCandidates cands ((List.range' 0 m).filterMap
        (fun i : Nat => scoreCandidate U (getCandidate cands (i : Int)) (wrap32 (i : Int))
          (TrimRunes query) (LowerRunes U (TrimRunes query))
          ((TrimRunes query).length == (LowerRunes U (TrimRunes query)).length))))
      (sortFilteredCandidates cands ((List.range' m (cands.length - m)).filterMap
        (fun i : Nat => scoreCandidate U (getCandidate cands (i : Int)) (wrap32 (i : Int))
          (TrimRunes query) (LowerRunes U (TrimRunes query))
          ((TrimRunes query).length == (LowerRunes U (TrimRunes query)).length)))))).Perm
      (sortFilteredCandidates cands ((List.range' 0 cands.length).filterMap
        (fun i : Nat => scoreCandidate U (getCandidate cands (i : Int)) (wrap32 (i : Int))
          (TrimRunes query) (LowerRunes U (TrimRunes query))
          ((TrimRunes query).length == (LowerRunes U (TrimRunes query)).length)))) :=
    hperm1.trans (sortFiltered_perm cands _).symm
  refine @sorted_perm_eq_local FilteredCandidate
    (fun a b => lessFilteredCandidate cands b a = false) _ _ hperm2 ?_ ?_ ?_
  · exact mergeLoop_sorted cands _ _ (sortFiltered_sorted cands _) (sortFiltered_sorted cands _)
  · exact sortFiltered_sorted cands _
  · intro a b hamem hbmem hab hba
    have ha2 := hperm1.mem_iff.mp hamem
    have hb2 := hperm1.mem_iff.mp hbmem
    obtain ⟨i, -, hilt, hia⟩ := scored_mem U cands _ _ _ 0 cands.length a ha2
    obtain ⟨j, -, hjlt, hjb⟩ := scored_mem U cands _ _ _ 0 cands.length b hb2
    exact scored_antisymm U cands _ _ _ hn hids a b i j (by omega) (by omega)
      hia hjb hba hab

/-- C3 counterexample: with a blank query the range filters score every
candidate (no empty-query early return), while the full filter returns
all candidates with score 0, so range/merge disagrees with the full
filter. -/
theorem C3_counterexample :
    MergeFilteredCandidates [demoCand]
      (FilterCandidatesRangeWithQueryRunes asciiTables [demoCand] 0 0 [] [])
      (FilterCandidatesRangeWithQueryRunes asciiTables [demoCand] 0 1 [] []) =
      [{ index := 0, score := 3087, openLine := 0, openCol := 0 }] ∧
    FilterCandidates asciiTables [demoCand] [] =
      [{ index := 0, score := 0, openLine := 0, openCol := 0 }] ∧
    ([{ index := 0, score := 3087, openLine := 0, openCol := 0 }] :
        List FilteredCandidate) ≠
      [{ index := 0, score := 0, openLine := 0, openCol := 0 }] := by
  refine ⟨?_, by decide, by decide⟩
  decide

/-- Witness for the amended range/merge equivalence at a concrete
candidate set, query and split point. -/
theorem C3_witness :
    (1 : Nat) ≤ [demoCand].length ∧ TrimRunes "k".data ≠ [] ∧
    [demoCand].length < 2147483648 ∧ ([demoCand].map Candidate.id).Nodup ∧
    MergeFilteredCandidates [demoCand]
      (FilterCandidatesRangeWithQueryRunes asciiTables [demoCand] 0 ((1 : Nat) : Int)
        (TrimRunes "k".data) (LowerRunes asciiTables (TrimRunes "k".data)))
      (FilterCandidatesRangeWithQueryRunes asciiTables [demoCand] ((1 : Nat) : Int)
        (([demoCand].length : Nat) : Int)
        (TrimRunes "k".data) (LowerRunes asciiTables (TrimRunes "k".data)))
      = FilterCandidates asciiTables [demoCand] "k".data :=
  ⟨by decide, by decide, by decide, by decide,
    C3_range_merge_equivalence asciiTables [demoCand] "k".data 1 (by decide)
      (by decide) (by decide) (by decide)⟩

/-- The top-level filter with a non-blank query, through the scored
range. -/
theorem filterCandidates_eq (U : UnicodeTables) (cands : List Candidate)
    (query : List Char) (hq : TrimRunes query ≠ []) :
    FilterCandidates U cands query =
      sortFilteredCandidates cands ((List.range' 0 cands.length).filterMap
        (fun i : Nat => scoreCandidate U (getCandidate cands (i : Int)) (wrap32 (i : Int))
          (TrimRunes query) (LowerRunes U (TrimRunes query))
          ((TrimRunes query).length == (LowerRunes U (TrimRunes query)).length))) := by
  have hqlen : (LowerRunes U (TrimRunes query)).length ≠ 0 := by
    intro h
    rw [LowerRunes, List.length_map] at h
    exact hq (List.length_eq_zero.mp h)
  unfold FilterCandidates
  dsimp only
  exact core_filter_eq U cands _ _ hqlen

/-- The subset filter on a non-empty prior result is the sorted rescoring
of the prior entries. -/
theorem subset_filter_eq (U : UnicodeTables) (cands : List Candidate)
    (S : List FilteredCandidate) (qR qL : List Char)
    (hq : qL.length ≠ 0) (hS : S ≠ []) :
    FilterCandidatesSubsetWithQueryRunes U cands S qR qL =
      sortFilteredCandidates cands
        (S.filterMap (fun fc =>
          if 0 ≤ fc.index ∧ fc.index < (cands.length : Int) then
            scoreCandidate U (getCandidate cands fc.index) fc.index qR qL
              (qR.length == qL.length)
          else none)) := by
  unfold FilterCandidatesSubsetWithQueryRunes filterCandidatesCore
  rw [if_neg hq, if_neg (by simpa using hS)]
  dsimp only
  unfold appendScoredRange
  dsimp only
  rw [List.drop_zero, Nat.sub_zero, List.take_length]
  rfl

/-- C1 (amended): refiltering the prior result by a finer query agrees
with the full filter whenever acceptance by the finer query implies
acceptance by the coarser one (candidate ids unique, count below
`2^31`, both queries non-blank). -/
theorem C1_subset_refinement (U : UnicodeTables) (cands : List Candidate)
    (p query : List Char)
    (hq : TrimRunes query ≠ []) (hp : TrimRunes p ≠ [])
    (hn : cands.length < 2147483648)
    (hids : (cands.map Candidate.id).Nodup)
    (hmono : ∀ i : Nat, i < cands.length →
      (scoreCandidate U (getCandidate cands (i : Int)) (wrap32 (i : Int))
        (TrimRunes query) (LowerRunes U (TrimRunes query))
        ((TrimRunes query).length == (LowerRunes U (TrimRunes query)).length)).isSome
          = true →
      (scoreCandidate U (getCandidate cands (i : Int)) (wrap32 (i : Int))
        (TrimRunes p) (LowerRunes U (TrimRunes p))
        ((TrimRunes p).length == (LowerRunes U (TrimRunes p)).length)).isSome = true) :
    FilterCandidatesSubsetWithQueryRunes U cands (FilterCandidates U cands p)
      (TrimRunes query) (LowerRunes U (TrimRunes query))
      = FilterCandidates U cands query := by
  have hqlen : (LowerRunes U (TrimRunes query)).length ≠ 0 := by
    intro h
    rw [LowerRunes, List.length_map] at h
    exact hq (List.length_eq_zero.mp h)
  have hpeq := filterCandidates_eq U cands p hp
  have hqeq := filterCandidates_eq U cands query hq
  by_cases hS : FilterCandidates U cands p = []
  · have hApnil : (List.range' 0 cands.length).filterMap
        (fun i : Nat => scoreCandidate U (getCandidate cands (i : Int)) (wrap32 (i : Int))
          (TrimRunes p) (LowerRunes U (TrimRunes p))
          ((TrimRunes p).length == (LowerRunes U (TrimRunes p)).length)) = [] := by
      have hperm := sortFiltered_perm cands ((List.range' 0 cands.length).filterMap
        (fun i : Nat => scoreCandidate U (getCandidate cands (i : Int)) (wrap32 (i : Int))
          (TrimRunes p) (LowerRunes U (TrimRunes p))
          ((TrimRunes p).length == (LowerRunes U (TrimRunes p)).length)))
      rw [← hpeq, hS] at hperm
      exact hperm.nil_eq.symm
    have hAqnil : (List.range' 0 cands.length).filterMap
        (fun i : Nat => scoreCandidate U (getCandidate cands (i : Int)) (wrap32 (i : Int))
          (TrimRunes query) (LowerRunes U (TrimRunes query))
          ((TrimRunes query).length == (LowerRunes U (TrimRunes query)).length)) = [] := by
      rw [List.filterMap_eq_nil_iff]
      intro i hi
      rw [List.mem_range'_1] at hi
      rcases hopt : scoreCandidate U (getCandidate cands (i : Int)) (wrap32 (i : Int))
          (TrimRunes query) (LowerRunes U (TrimRunes query))
          ((TrimRunes query).length == (LowerRunes U (TrimRunes query)).length) with
        _ | item
      · rfl
      · exfalso
        have hps := hmono i (by omega) (by rw [hopt]; rfl)
        rw [Option.isSome_iff_exists] at hps
        obtain ⟨b, hb⟩ := hps
        have : b ∈ (List.range' 0 cands.length).filterMap
            (fun i : Nat => scoreCandidate U (getCandidate cands (i : Int)) (wrap32 (i : Int))
              (TrimRunes p) (LowerRunes U (TrimRunes p))
              ((TrimRunes p).length == (LowerRunes U (TrimRunes p)).length)) := by
          rw [List.mem_filterMap]
          exact ⟨i, by rw [List.mem_range'_1]; omega, hb⟩
        rw [hApnil] at this
        exact absurd this (by simp)
    rw [hS]
    have hLHS : FilterCandidatesSubsetWithQueryRunes U cands []
        (TrimRunes query) (LowerRunes U (TrimRunes query)) = [] := by
      unfold FilterCandidatesSubsetWithQueryRunes filterCandidatesCore
      rw [if_neg hqlen, if_pos rfl]
    rw [hLHS, hqeq, hAqnil]
    rfl
  · rw [subset_filter_eq U cands _ _ _ hqlen hS]
    have hcongr : ∀ i : Nat, i ∈ List.range' 0 cands.length →
        ((fun i : Nat => scoreCandidate U (getCandidate cands (i : Int)) (wrap32 (i : Int))
          (TrimRunes p) (LowerRunes U (TrimRunes p))
          ((TrimRunes p).length == (LowerRunes U (TrimRunes p)).length)) i).bind
          (fun fc =>
            if 0 ≤ fc.index ∧ fc.index < (cands.length : Int) then
              scoreCandidate U (getCandidate cands fc.index) fc.index
                (TrimRunes query) (LowerRunes U (TrimRunes query))
                ((TrimRunes query).length == (LowerRunes U (TrimRunes query)).length)
            else none) =
        scoreCandidate U (getCandidate cands (i : Int)) (wrap32 (i : Int))
          (TrimRunes query) (LowerRunes U (TrimRunes query))
          ((TrimRunes query).length == (LowerRunes U (TrimRunes query)).length) := by
      intro i hi
      rw [List.mem_range'_1] at hi
      dsimp only
      have hwi : wrap32 ((i : Nat) : Int) = ((i : Nat) : Int) :=
        wrap32_eq_self (by omega) (by omega)
      rcases hfp : scoreCandidate U (getCandidate cands (i : Int)) (wrap32 (i : Int))
          (TrimRunes p) (LowerRunes U (TrimRunes p))
          ((TrimRunes p).length == (LowerRunes U (TrimRunes p)).length) with _ | b
      · rw [Option.none_bind]
        rcases hfq : scoreCandidate U (getCandidate cands (i : Int)) (wrap32 (i : Int))
            (TrimRunes query) (LowerRunes U (TrimRunes query))
            ((TrimRunes query).length == (LowerRunes U (TrimRunes query)).length) with
          _ | a
        · rfl
        · exfalso
          have := hmono i (by omega) (by rw [hfq]; rfl)
          rw [hfp] at this
          exact Bool.noConfusion this
      · have hbi : b.index = ((i : Nat) : Int) := by
          have := scoreCandidate_some_index U (getCandidate cands (i : Int))
            (wrap32 (i : Int)) _ _ _ b hfp
          rw [this, hwi]
        rw [Option.some_bind]
        rw [if_pos (by rw [hbi]; constructor <;> omega)]
        rw [hbi, hwi]
    have hchain : ((FilterCandidates U cands p).filterMap (fun fc =>
          if 0 ≤ fc.index ∧ fc.index < (cands.length : Int) then
            scoreCandidate U (getCandidate cands fc.index) fc.index
              (TrimRunes query) (LowerRunes U (TrimRunes query))
              ((TrimRunes query).length == (LowerRunes U (TrimRunes query)).length)
          else none)).Perm
        ((List.range' 0 cands.length).filterMap
          (fun i : Nat => scoreCandidate U (getCandidate cands (i : Int)) (wrap32 (i : Int))
            (TrimRunes query) (LowerRunes U (TrimRunes query))
            ((TrimRunes query).length == (LowerRunes U (TrimRunes query)).length))) := by
      have hstep1 : ((FilterCandidates U cands p).filterMap (fun fc =>
          if 0 ≤ fc.index ∧ fc.index < (cands.length : Int) then
            scoreCandidate U (getCandidate cands fc.index) fc.index
              (TrimRunes query) (LowerRunes U (TrimRunes query))
              ((TrimRunes query).length == (LowerRunes U (TrimRunes query)).length)
          else none)).Perm
          (((List.range' 0 cands.length).filterMap
            (fun i : Nat => scoreCandidate U (getCandidate cands (i : Int)) (wrap32 (i : Int))
              (TrimRunes p) (LowerRunes U (TrimRunes p))
              ((TrimRunes p).length == (LowerRunes U (TrimRunes p)).length))).filterMap
            (fun fc =>
              if 0 ≤ fc.index ∧ fc.index < (cands.length : Int) then
                scoreCandidate U (getCandidate cands fc.index) fc.index
                  (TrimRunes query) (LowerRunes U (TrimRunes query))
                  ((TrimRunes query).length == (LowerRunes U (TrimRunes query)).length)
              else none)) := by
        refine List.Perm.filterMap _ ?_
        rw [hpeq]
        exact sortFiltered_perm cands _
      refine hstep1.trans ?_
      rw [List.filterMap_filterMap]
      rw [List.filterMap_congr hcongr]
    have hperm2 := hchain.trans (sortFiltered_perm cands _).symm
    rw [hqeq]
    refine @sorted_perm_eq_local FilteredCandidate
      (fun a b => lessFilteredCandidate cands b a = false) _ _
      ((sortFiltered_perm cands _).trans hperm2) ?_ ?_ ?_
    · exact sortFiltered_sorted cands _
    · exact sortFiltered_sorted cands _
    · intro a b hamem hbmem hab hba
      have hmem := (sortFiltered_perm cands _).trans hchain
      have ha2 := hmem.mem_iff.mp hamem
      have hb2 := hmem.mem_iff.mp hbmem
      obtain ⟨i, -, hilt, hia⟩ := scored_mem U cands _ _ _ 0 cands.length a ha2
      obtain ⟨j, -, hjlt, hjb⟩ := scored_mem U cands _ _ _ 0 cands.length b hb2
      exact scored_antisymm U cands _ _ _ hn hids a b i j (by omega) (by omega)
        hia hjb hba hab

/-- A candidate whose text fuzzily matches an extension of a query that
its own prefix loses to the loose-match rejection: the match span for
`ab` is 12 > 2*5 with score below 8, while `abc` spans 13 ≤ 3*5. -/
def looseCand : Candidate :=
  { id := 1, file := "zz".data, line := 1, col := 1,
    text := "axxxxxxxxxxbcxxxxxxxxxxxxxxxxx".data,
    key := "zz".data, langID := [], semanticScore := 5 }

set_option maxRecDepth 16000 in
/-- C1 counterexample: filtering `looseCand` with `ab` returns nothing
(loose-match rejection), so refiltering that empty subset with the
extension `abc` returns nothing, while the full filter with `abc`
accepts the candidate. -/
theorem C1_counterexample :
    FilterCandidates asciiTables [looseCand] "ab".data = [] ∧
    FilterCandidatesSubsetWithQueryRunes asciiTables [looseCand]
      (FilterCandidates asciiTables [looseCand] "ab".data)
      (TrimRunes "abc".data) (LowerRunes asciiTables (TrimRunes "abc".data)) = [] ∧
    FilterCandidates asciiTables [looseCand] "abc".data =
      [{ index := 0, score := 1796, openLine := 0, openCol := 0 }] ∧
    ([] : List FilteredCandidate) ≠
      [{ index := 0, score := 1796, openLine := 0, openCol := 0 }] :=
  ⟨by decide, by decide, by decide, by decide⟩

/-- Witness for the amended subset refinement at a concrete candidate
set and queries. -/
theorem C1_witness :
    TrimRunes "k".data ≠ [] ∧ [demoCand].length < 2147483648 ∧
    ([demoCand].map Candidate.id).Nodup ∧
    (∀ i : Nat, i < [demoCand].length →
      (scoreCandidate asciiTables (getCandidate [demoCand] (i : Int)) (wrap32 (i : Int))
        (TrimRunes "k".data) (LowerRunes asciiTables (TrimRunes "k".data))
        ((TrimRunes "k".data).length ==
          (LowerRunes asciiTables (TrimRunes "k".data)).length)).isSome = true →
      (scoreCandidate asciiTables (getCandidate [demoCand] (i : Int)) (wrap32 (i : Int))
        (TrimRunes "k".data) (LowerRunes asciiTables (TrimRunes "k".data))
        ((TrimRunes "k".data).length ==
          (LowerRunes asciiTables (TrimRunes "k".data)).length)).isSome = true) ∧
    FilterCandidatesSubsetWithQueryRunes asciiTables [demoCand]
      (FilterCandidates asciiTables [demoCand] "k".data)
      (TrimRunes "k".data) (LowerRunes asciiTables (TrimRunes "k".data))
      = FilterCandidates asciiTables [demoCand] "k".data :=
  ⟨by decide, by decide, by decide, by decide,
    C1_subset_refinement asciiTables [demoCand] "k".data "k".data
      (by decide) (by decide) (by decide) (by decide) (by decide)⟩
